import Mathlib

/-!
# Verification of the tfvars codec and deployment runner

Shallow embedding of the core of the `workspace-creator` repository:

* the tfvars parser/serializer (`load_tfvars` / `save_tfvars`,
  identical in `src/app.py` and `src/app/services/template_service.py`),
* the form-field merge loops of `configure` (`src/app.py`) and `index`
  (`src/deploy.py`),
* the asynchronous run functions (`run_terraform_apply_async` in
  `src/app.py` / `_run_apply` in `src/app/services/terraform_service.py`,
  and `run_terraform_command` in `src/templates/azure-simple/deploy.py`)
  together with the `run_command` route of the azure-simple variant.

Text is modelled as `List Char`; a Python `str` operation is embedded by a
function of the same behaviour on character lists.
-/

namespace WC

/-- Characters stripped by Python `str.strip()` with no argument. -/
def pySpace (c : Char) : Bool :=
  c = ' ' || c = '\t' || c = '\n' || c = '\r' || c = '\x0b' || c = '\x0c'

/-- Left part of Python `str.strip()`: drop leading whitespace. -/
def dropWS (l : List Char) : List Char := l.dropWhile pySpace

/-- Right part of Python `str.strip()`: drop trailing whitespace. -/
def dropWSR (l : List Char) : List Char := (dropWS l.reverse).reverse

/-- Python `str.strip()` (no argument). -/
def pystrip (l : List Char) : List Char := dropWSR (dropWS l)

/-- Drop all leading occurrences of `c` (left half of `str.strip(c)`). -/
def dropAllL (c : Char) (l : List Char) : List Char := l.dropWhile (· = c)

/-- Python `str.strip(c)` for a single-character argument:
strip all leading and trailing occurrences of `c`. -/
def stripAll (c : Char) (l : List Char) : List Char :=
  (dropAllL c (dropAllL c l).reverse).reverse

/-- Python `str.startswith(p)`. -/
def lStartsWith : List Char → List Char → Bool
  | _, [] => true
  | [], _ :: _ => false
  | c :: cs, p :: ps => c = p && lStartsWith cs ps

/-- Python `str.endswith(p)`. -/
def lEndsWith (l p : List Char) : Bool := lStartsWith l.reverse p.reverse

/-- Python `s.split(c, 1)` when it yields two parts: the text before the
first occurrence of `c` and the text after it.  `none` when `c` does not
occur (where Python would return a single part and a two-name unpacking
would raise `ValueError`). -/
def splitFirst (c : Char) : List Char → Option (List Char × List Char)
  | [] => none
  | x :: xs =>
    if x = c then some ([], xs)
    else (splitFirst c xs).map (fun p => (x :: p.1, p.2))

/-- Python `content.split('\n')`. -/
def splitNL : List Char → List (List Char)
  | [] => [[]]
  | c :: cs =>
    if c = '\n' then [] :: splitNL cs
    else
      match splitNL cs with
      | [] => [[c]]
      | l :: ls => (c :: l) :: ls

/-- Python `'\n'.join(lines)`. -/
def joinNL : List (List Char) → List Char
  | [] => []
  | [l] => l
  | l :: ls => l ++ '\n' :: joinNL ls

/-- Python `'sep'.join` for a general one-character separator. -/
def joinSep (c : Char) : List (List Char) → List Char
  | [] => []
  | [l] => l
  | l :: ls => l ++ c :: joinSep c ls

/-- The suffix after the last underscore: Python `s.split('_')[-1]`. -/
def afterLastUS (l : List Char) : List Char :=
  match splitFirst '_' l.reverse with
  | none => l
  | some (a, _) => a.reverse

end WC

namespace WC

/-! ## Basic lemmas about the Python string primitives -/

theorem lStartsWith_nil (p : List Char) (hp : p ≠ []) :
    lStartsWith [] p = false := by
  cases p with
  | nil => exact absurd rfl hp
  | cons c cs => rfl

theorem lStartsWith_cons (c p : Char) (cs ps : List Char) :
    lStartsWith (c :: cs) (p :: ps) = (decide (c = p) && lStartsWith cs ps) := rfl

theorem splitFirst_eq (c : Char) :
    ∀ (l a b : List Char), splitFirst c l = some (a, b) →
      l = a ++ c :: b ∧ c ∉ a := by
  intro l
  induction l with
  | nil => intro a b h; simp [splitFirst] at h
  | cons x xs ih =>
    intro a b h
    by_cases hx : x = c
    · subst hx
      simp [splitFirst] at h
      obtain ⟨ha, hb⟩ := h
      subst ha; subst hb
      exact ⟨rfl, by simp⟩
    · rcases ho : splitFirst c xs with _ | pq
      · rw [splitFirst, if_neg hx, ho] at h
        simp at h
      · rcases pq with ⟨p, q⟩
        rw [splitFirst, if_neg hx, ho] at h
        simp only [Option.map_some', Option.some.injEq, Prod.mk.injEq] at h
        obtain ⟨ha, hb⟩ := h
        subst hb
        obtain ⟨he, hc⟩ := ih p q ho
        constructor
        · rw [← ha]; simp [he]
        · rw [← ha]
          intro hm
          rcases List.mem_cons.mp hm with h1 | h2
          · exact hx h1.symm
          · exact hc h2

theorem splitFirst_isSome (c : Char) :
    ∀ (l : List Char), c ∈ l → (splitFirst c l).isSome := by
  intro l
  induction l with
  | nil => intro h; simp at h
  | cons x xs ih =>
    intro h
    by_cases hx : x = c
    · simp [splitFirst, hx]
    · rcases List.mem_cons.mp h with h1 | h2
      · exact absurd h1.symm hx
      · have := ih h2
        rcases ho : splitFirst c xs with _ | p
        · rw [ho] at this; simp at this
        · simp [splitFirst, hx, ho]

theorem splitFirst_of_append (c : Char) (a b : List Char) (ha : c ∉ a) :
    splitFirst c (a ++ c :: b) = some (a, b) := by
  induction a with
  | nil => simp [splitFirst]
  | cons x xs ih =>
    have hx : x ≠ c := by intro h; exact ha (by simp [h])
    have hxs : c ∉ xs := fun h => ha (by simp [h])
    simp [splitFirst, hx, ih hxs]

end WC

namespace WC

/-! ## Data model

The parsers in `src/app.py` (`load_tfvars`) and
`src/app/services/template_service.py` store Python `str`, `bool` and
`dict` values.  The spec's `ConfigValue` (§3) additionally has a
`StringList` variant; it is included here so claims about it can be
stated, but the embedded code never produces it. -/

/-- Opening brace character. -/
def lbrace : Char := Char.ofNat 123

/-- Closing brace character. -/
def rbrace : Char := Char.ofNat 125

/-- Single-quote character. -/
def squote : Char := Char.ofNat 39

/-- A flat string-to-string map with insertion order (Python `dict`). -/
abbrev SMap := List (List Char × List Char)

/-- One variable's value: the spec's `ConfigValue`. -/
inductive Val where
  | str (s : List Char)
  | bool (b : Bool)
  | map (m : SMap)
  | list (xs : List (List Char))
  deriving DecidableEq, Repr

/-- The spec's `ConfigSet`: an ordered mapping from name to value. -/
abbrev Config := List (List Char × Val)

/-- Python `d[k] = v` on an insertion-ordered `dict`: update in place when
the key exists, append otherwise. -/
def odInsert {α : Type} (k : List Char) (v : α) :
    List (List Char × α) → List (List Char × α)
  | [] => [(k, v)]
  | (k', v') :: rest =>
    if k' = k then (k', v) :: rest else (k', v') :: odInsert k v rest

/-- Python `d.get(k)`: the value at the first matching key. -/
def odLookup {α : Type} (k : List Char) :
    List (List Char × α) → Option α
  | [] => none
  | (k', v') :: rest => if k' = k then some v' else odLookup k rest

/-- The key list of an ordered mapping. -/
def odKeys {α : Type} (d : List (List Char × α)) : List (List Char) :=
  d.map Prod.fst

/-! ## The tfvars parser

`load_tfvars` in `src/app.py` (lines 47-92), identical to
`TemplateService.load_tfvars` in `src/app/services/template_service.py`
(lines 9-54).  The result is `none` exactly where the Python would raise
(a two-name unpacking of a one-part split); the totality theorem below
shows that never happens. -/

/-- The inner map parsing (`for mline in map_lines: ...`). -/
def parseMapLines : List (List Char) → SMap → Option SMap
  | [], m => some m
  | ml :: rest, m =>
    let s := pystrip ml
    if s.contains ':' && !(lStartsWith s ['#']) then
      match splitFirst ':' s with
      | none => none
      | some (a, b) =>
        parseMapLines rest
          (odInsert (stripAll '"' (pystrip a))
            (stripAll '"' (stripAll ',' (pystrip b))) m)
    else parseMapLines rest m

/-- The block-collection loop (`while i < len(lines) and not
lines[i].strip().endswith(...)`): returns the collected raw lines
(including the closing line when found) and the lines after the block. -/
def collectMapLines : List (List Char) → List (List Char) × List (List Char)
  | [] => ([], [])
  | l :: rest =>
    if lEndsWith (pystrip l) [rbrace] then ([l], rest)
    else
      let p := collectMapLines rest
      (l :: p.1, p.2)

theorem collectMapLines_snd_length :
    ∀ ls : List (List Char), (collectMapLines ls).2.length ≤ ls.length := by
  intro ls
  induction ls with
  | nil => simp [collectMapLines]
  | cons l rest ih =>
    by_cases h : lEndsWith (pystrip l) [rbrace] = true
    · simp [collectMapLines, h]
    · simp only [collectMapLines, Bool.not_eq_true] at *
      simp [h]
      exact Nat.le_succ_of_le ih

/-- The main line loop of `load_tfvars`, with a fuel argument so the
recursion is structural (and hence kernel-computable).  One unit of fuel
is spent per iteration of the outer `while` loop, and every iteration
consumes at least one line, so `fuel = number of lines` is always enough;
`parseLinesF_fuel` below proves the fuel is irrelevant beyond that. -/
def parseLinesF : Nat → List (List Char) → Config → Option Config
  | _, [], d => some d
  | 0, _ :: _, d => some d
  | fuel + 1, l :: rest, d =>
    let s := pystrip l
    if s.contains '=' && !(lStartsWith s ['#']) then
      match splitFirst '=' s with
      | none => none
      | some (kp, vp) =>
        let key := pystrip kp
        let value := pystrip vp
        if lStartsWith value ['"'] && lEndsWith value ['"'] then
          parseLinesF fuel rest (odInsert key (Val.str ((value.drop 1).dropLast)) d)
        else if value = ['t', 'r', 'u', 'e'] then
          parseLinesF fuel rest (odInsert key (Val.bool true) d)
        else if value = ['f', 'a', 'l', 's', 'e'] then
          parseLinesF fuel rest (odInsert key (Val.bool false) d)
        else if lStartsWith value [lbrace] then
          let p := collectMapLines rest
          match parseMapLines (value :: p.1) [] with
          | none => none
          | some m => parseLinesF fuel p.2 (odInsert key (Val.map m) d)
        else
          parseLinesF fuel rest (odInsert key (Val.str (stripAll '"' value)) d)
    else parseLinesF fuel rest d

/-- The main line loop of `load_tfvars` (src/app.py 56-91). -/
def parseLines (ls : List (List Char)) (d : Config) : Option Config :=
  parseLinesF ls.length ls d

/-- `load_tfvars`: parse a whole tfvars text. -/
def load_tfvars (content : List Char) : Option Config :=
  parseLines (splitNL content) []

/-! ## The tfvars serializer (`save_tfvars`) -/

/-- Python `sep.join` for a general separator. -/
def joinL (sep : List Char) : List (List Char) → List Char
  | [] => []
  | [l] => l
  | l :: ls => l ++ sep ++ joinL sep ls

/-- Python `str(...)` of a list of strings, as interpolated by the `else`
branch of `save_tfvars` when handed a list value; modelled for elements
that Python renders with plain single quotes (no quote or backslash
characters, no control characters). -/
def pyStrOfList (xs : List (List Char)) : List Char :=
  '[' :: (joinL [',', ' '] (xs.map (fun s => squote :: (s ++ [squote])))) ++ [']']

/-- The `  "k": "v"` line `save_tfvars` emits for one map entry
(src/app.py 102). -/
def serMapLine (e : List Char × List Char) : List Char :=
  ' ' :: ' ' :: '"' :: (e.1 ++ ('"' :: ':' :: ' ' :: '"' :: (e.2 ++ ['"'])))

/-- The lines `save_tfvars` (src/app.py 94-108 /
template_service.py 56-72) emits for one entry. -/
def serVal (k : List Char) (v : Val) : List (List Char) :=
  match v with
  | .bool b =>
    [k ++ (' ' :: '=' :: ' ' ::
      (if b then ['t', 'r', 'u', 'e'] else ['f', 'a', 'l', 's', 'e']))]
  | .map m =>
    (k ++ [' ', '=', ' ', lbrace]) :: m.map serMapLine ++ [[rbrace]]
  | .str s => [k ++ (' ' :: '=' :: ' ' :: '"' :: (s ++ ['"']))]
  | .list xs => [k ++ (' ' :: '=' :: ' ' :: '"' :: (pyStrOfList xs ++ ['"']))]

/-- `save_tfvars`: serialize a `Config` back to text. -/
def save_tfvars (d : Config) : List Char :=
  joinNL (d.map (fun e => serVal e.1 e.2)).flatten

end WC

namespace WC

/-! ## Merging submitted form fields

The update loop of `configure` (src/app.py 575-591), identical to the
loop in `index` (src/deploy.py 177-189 and 203-219 modulo the skipped
submit-button key).  `request.form` is modelled as an association list of
field name and submitted value; iteration runs over its entries and
`request.form.get(key)` / `request.form[key]` return the first value for
the key.  `json.loads` on a map-typed field is modelled by a parameter
`jp`: the loop stores the parsed mapping on success and keeps the old
value when parsing fails. -/

/-- A submitted form: field name to submitted textual value. -/
abbrev Form := List (List Char × List Char)

/-- The body of the update loop for one form key `k`
(src/app.py 579-590). -/
def mergeStep (jp : List Char → Option SMap) (form : Form) (d : Config)
    (k : List Char) : Config :=
  match odLookup k d with
  | none => d
  | some (Val.bool _) =>
    odInsert k (Val.bool (decide (odLookup k form = some ['o', 'n']))) d
  | some (Val.map _) =>
    match jp ((odLookup k form).getD []) with
    | some m => odInsert k (Val.map m) d
    | none => d
  | some _ => odInsert k (Val.str ((odLookup k form).getD [])) d

/-- The whole update loop of `configure` (src/app.py 578-590): the spec's
`MergeFormFields`. -/
def mergeFormFields (jp : List Char → Option SMap) (d : Config)
    (form : Form) : Config :=
  form.foldl (fun d e => mergeStep jp form d e.1) d

/-- The update loop of `index` (src/deploy.py 178-189): as
`mergeFormFields` but skipping the submit-button key `update`. -/
def mergeIndexLoop (jp : List Char → Option SMap) (d : Config)
    (form : Form) : Config :=
  form.foldl
    (fun d e =>
      if e.1 = ['u', 'p', 'd', 'a', 't', 'e'] then d
      else mergeStep jp form d e.1) d

/-- The key of the tags entry. -/
def tagsKey : List Char := ['t', 'a', 'g', 's']

/-- One iteration of the tag-collection loop of `index`
(src/deploy.py 193-198). -/
def applyTag (form : Form) (d : Config) (tk : List Char) : Config :=
  let idx := afterLastUS tk
  let k := pystrip ((odLookup tk form).getD [])
  let v := pystrip
    ((odLookup (['t', 'a', 'g', 's', '_', 'v', 'a', 'l', 'u', 'e', '_'] ++ idx)
      form).getD [])
  if k = [] then d
  else
    match odLookup tagsKey d with
    | some (Val.map m) => odInsert tagsKey (Val.map (odInsert k v m)) d
    | _ => d

/-- The whole `update` branch of `index` (src/deploy.py 177-198): the
update loop followed by the tags handling, which rebinds `data['tags']`
to a fresh dict and fills it from the `tags_key_i` / `tags_value_i`
fields. -/
def mergeIndexUpdate (jp : List Char → Option SMap) (d : Config)
    (form : Form) : Config :=
  let d1 := mergeIndexLoop jp d form
  let d2 := odInsert tagsKey (Val.map []) d1
  ((form.map Prod.fst).filter
      (fun k => lStartsWith k
        ['t', 'a', 'g', 's', '_', 'k', 'e', 'y', '_'])).foldl
    (applyTag form) d2

/-! ## The deployment runner

The run functions mutate a process-wide status record.  A run is embedded
as the list of status records observable after each single assignment the
Python code performs, parametrised by the outcome of the subprocess:
the launch fails (`Popen` raises — the spec's LaunchError), or the
process runs, streams a list of output lines (empty reads are skipped by
`if output:`) and exits with a code, or — since the `try` block encloses
the whole read loop — an exception strikes mid-run, after some lines have
already been appended. -/

/-- `apply_status` of src/app.py (line 17) /
src/app/services/terraform_service.py: fields `running`, `output`,
`success`, `template`. -/
structure RunStatusA where
  running : Bool
  output : List Char
  success : Option Bool
  template : Option (List Char)
  deriving DecidableEq, Repr

/-- `deploy_status` of the azure-simple / aws-simple variants (fields
`running`, `output`, `success`, `command`). -/
structure RunStatusD where
  running : Bool
  output : List Char
  success : Option Bool
  command : Option (List Char)
  deriving DecidableEq, Repr

/-- Outcome of the spawned subprocess: `Popen` itself raises, the
process streams its lines and exits, or an exception interrupts the read
loop after `outLines` have already been appended (the `try` of
src/app.py 117-128 and of azure-simple deploy.py 151-168 encloses the
loop, so the handler can also fire mid-run). -/
inductive ExecOutcome where
  | launchFail (err : List Char)
  | completed (outLines : List (List Char)) (exitCode : Int)
  | midFail (outLines : List (List Char)) (err : List Char)
  deriving DecidableEq, Repr

/-- States after each append performed by the output-reading loop
(src/app.py 119-124): empty reads append nothing. -/
def appendStatesA (s : RunStatusA) : List (List Char) → List RunStatusA
  | [] => []
  | l :: rest =>
    if l = [] then appendStatesA s rest
    else
      let s' := { s with output := s.output ++ l }
      s' :: appendStatesA s' rest

/-- `run_terraform_apply_async` (src/app.py 110-129), identical in
control flow to `_run_apply` (src/app/services/terraform_service.py
13-45): the sequence of status records after each assignment, starting
from state `s0`.  The `except` handler (src/app.py 126-128) ASSIGNS
`output = str(e)` — on a mid-run exception this replaces whatever the
loop had accumulated. -/
def run_terraform_apply_async (t : List Char) (r : ExecOutcome)
    (s0 : RunStatusA) : List RunStatusA :=
  let s1 := { s0 with running := true }
  let s2 := { s1 with output := [] }
  let s3 := { s2 with success := none }
  let s4 := { s3 with template := some t }
  match r with
  | .launchFail err =>
    let s5 := { s4 with output := err }
    let s6 := { s5 with success := some false }
    let s7 := { s6 with running := false }
    [s1, s2, s3, s4, s5, s6, s7]
  | .completed ls code =>
    let outs := appendStatesA s4 ls
    let sl := outs.getLastD s4
    let s5 := { sl with success := some (decide (code = 0)) }
    let s6 := { s5 with running := false }
    [s1, s2, s3, s4] ++ outs ++ [s5, s6]
  | .midFail ls err =>
    let outs := appendStatesA s4 ls
    let sl := outs.getLastD s4
    let s5 := { sl with output := err }
    let s6 := { s5 with success := some false }
    let s7 := { s6 with running := false }
    [s1, s2, s3, s4] ++ outs ++ [s5, s6, s7]

/-- States after each append performed by the output loop of the
azure-simple variant (deploy.py 160-162). -/
def appendStatesD (s : RunStatusD) : List (List Char) → List RunStatusD
  | [] => []
  | l :: rest =>
    if l = [] then appendStatesD s rest
    else
      let s' := { s with output := s.output ++ l }
      s' :: appendStatesD s' rest

/-- The error text appended by the `except` branch of
`run_terraform_command` (azure-simple deploy.py 167):
`'\n\nError: ' + str(e)` — unlike src/app.py, this handler appends. -/
def errTextD (err : List Char) : List Char :=
  '\n' :: '\n' :: 'E' :: 'r' :: 'r' :: 'o' :: 'r' :: ':' :: ' ' :: err

/-- `run_terraform_command`'s inner `run` (src/templates/azure-simple/
deploy.py 144-170): the sequence of status records after each assignment;
`command` is the space-joined command line; the `except` branch appends
the error text, and `finally` clears `running`. -/
def run_terraform_command (cmd : List (List Char)) (r : ExecOutcome)
    (s0 : RunStatusD) : List RunStatusD :=
  let s1 := { s0 with running := true }
  let s2 := { s1 with output := [] }
  let s3 := { s2 with success := none }
  let s4 := { s3 with command := some (joinSep ' ' cmd) }
  match r with
  | .launchFail err =>
    let s5 := { s4 with output := s4.output ++ errTextD err }
    let s6 := { s5 with success := some false }
    let s7 := { s6 with running := false }
    [s1, s2, s3, s4, s5, s6, s7]
  | .completed ls code =>
    let outs := appendStatesD s4 ls
    let sl := outs.getLastD s4
    let s5 := { sl with success := some (decide (code = 0)) }
    let s6 := { s5 with running := false }
    [s1, s2, s3, s4] ++ outs ++ [s5, s6]
  | .midFail ls err =>
    let outs := appendStatesD s4 ls
    let sl := outs.getLastD s4
    let s5 := { sl with output := sl.output ++ errTextD err }
    let s6 := { s5 with success := some false }
    let s7 := { s6 with running := false }
    [s1, s2, s3, s4] ++ outs ++ [s5, s6, s7]

/-- Result of the `run_command` route (azure-simple deploy.py 588-604):
an error body (when rejected), whether a run thread was spawned, and the
status record as the route leaves it. -/
structure RouteResult where
  error : Option (List Char)
  spawned : Bool
  status : RunStatusD
  deriving DecidableEq, Repr

/-- The command table `cmd_map` (azure-simple deploy.py 593-598). -/
def cmdMap (c : List Char) : Option (List (List Char)) :=
  if c = ['i', 'n', 'i', 't'] then
    some [['t', 'e', 'r', 'r', 'a', 'f', 'o', 'r', 'm'], ['i', 'n', 'i', 't']]
  else if c = ['p', 'l', 'a', 'n'] then
    some [['t', 'e', 'r', 'r', 'a', 'f', 'o', 'r', 'm'], ['p', 'l', 'a', 'n']]
  else if c = ['a', 'p', 'p', 'l', 'y'] then
    some [['t', 'e', 'r', 'r', 'a', 'f', 'o', 'r', 'm'],
      ['a', 'p', 'p', 'l', 'y'], ['-', 'a', 'u', 't', 'o', '-', 'a', 'p', 'p',
        'r', 'o', 'v', 'e']]
  else if c = ['d', 'e', 's', 't', 'r', 'o', 'y'] then
    some [['t', 'e', 'r', 'r', 'a', 'f', 'o', 'r', 'm'],
      ['d', 'e', 's', 't', 'r', 'o', 'y'], ['-', 'a', 'u', 't', 'o', '-', 'a',
        'p', 'p', 'r', 'o', 'v', 'e']]
  else none

/-- The rejection body `'A command is already running'` of the
`run_command` route (azure-simple deploy.py 591). -/
def alreadyRunningMsg : List Char :=
  'A' :: ' ' :: 'c' :: 'o' :: 'm' :: 'm' :: 'a' :: 'n' ::
    'd' :: ' ' :: 'i' :: 's' :: ' ' :: 'a' :: 'l' :: 'r' :: 'e' :: 'a' ::
    'd' :: 'y' :: ' ' :: 'r' :: 'u' :: 'n' :: 'n' :: 'i' :: 'n' :: 'g' :: []

/-- The `run_command` route (azure-simple deploy.py 588-604): rejects
with "A command is already running" while a run is in flight, rejects
unknown commands, and otherwise spawns the background run. -/
def run_command (s : RunStatusD) (c : List Char) : RouteResult :=
  if s.running then
    { error := some alreadyRunningMsg, spawned := false, status := s }
  else
    match cmdMap c with
    | none =>
      { error := some (['I', 'n', 'v', 'a', 'l', 'i', 'd', ' ', 'c', 'o',
          'm', 'm', 'a', 'n', 'd']),
        spawned := false, status := s }
    | some _ => { error := none, spawned := true, status := s }

/-- The run trigger inside the POST branch of `configure`
(src/app.py 594): it starts `run_terraform_apply_async` on a fresh
thread unconditionally — there is no check of `apply_status.running`. -/
def configureTrigger (t : List Char) (r : ExecOutcome) (s : RunStatusA) :
    List RunStatusA :=
  run_terraform_apply_async t r s

end WC

namespace WC

/-! ## Runner lemmas -/

theorem appendStatesA_fields (s : RunStatusA) :
    ∀ ls, ∀ x ∈ appendStatesA s ls,
      x.running = s.running ∧ x.success = s.success ∧ x.template = s.template := by
  intro ls
  induction ls generalizing s with
  | nil => intro x hx; simp [appendStatesA] at hx
  | cons l rest ih =>
    intro x hx
    by_cases hl : l = []
    · rw [appendStatesA, if_pos hl] at hx
      exact ih s x hx
    · rw [appendStatesA, if_neg hl] at hx
      rcases List.mem_cons.mp hx with h1 | h2
      · subst h1; exact ⟨rfl, rfl, rfl⟩
      · exact ih { s with output := s.output ++ l } x h2

theorem getLastD_mem_or {α : Type} (l : List α) (d : α) :
    l.getLastD d ∈ l ∨ l.getLastD d = d := by
  induction l generalizing d with
  | nil => right; rfl
  | cons a as ih =>
    rw [List.getLastD_cons]
    rcases ih a with h | h
    · left; exact List.mem_cons_of_mem a h
    · left; rw [h]; exact List.mem_cons_self a as

theorem appendStatesA_getLastD_running (s : RunStatusA) (ls : List (List Char)) :
    ((appendStatesA s ls).getLastD s).running = s.running := by
  rcases getLastD_mem_or (appendStatesA s ls) s with h | h
  · exact (appendStatesA_fields s ls _ h).1
  · rw [h]

theorem appendStatesA_getLastD_success (s : RunStatusA) (ls : List (List Char)) :
    ((appendStatesA s ls).getLastD s).success = s.success := by
  rcases getLastD_mem_or (appendStatesA s ls) s with h | h
  · exact (appendStatesA_fields s ls _ h).2.1
  · rw [h]

end WC

namespace WC

/-- C3.  In `run_terraform_apply_async` / `_run_apply`, `success` is
assigned before `running` is cleared on both the normal-exit and the
exception path: no state of the run's trace has `running = false`
together with `success = none`. -/
theorem C3_success_set_before_running_false
    (t : List Char) (r : ExecOutcome) (s0 : RunStatusA) :
    ∀ s ∈ run_terraform_apply_async t r s0,
      s.running = false → s.success.isSome := by
  intro s hs hrun
  cases r with
  | launchFail err =>
    simp only [run_terraform_apply_async, List.mem_cons,
      List.not_mem_nil, or_false] at hs
    rcases hs with h | h | h | h | h | h | h
    all_goals subst h
    all_goals simp_all
  | completed ls code =>
    simp only [run_terraform_apply_async] at hs
    rcases List.mem_append.mp hs with h | h
    · rcases List.mem_append.mp h with h1 | h2
      · simp only [List.mem_cons, List.not_mem_nil, or_false] at h1
        rcases h1 with h | h | h | h
        all_goals subst h
        all_goals simp_all
      · have := (appendStatesA_fields _ _ s h2).1
        dsimp only at this
        rw [this] at hrun
        exact absurd hrun (by simp)
    · simp only [List.mem_cons, List.not_mem_nil, or_false] at h
      rcases h with h | h
      · subst h
        dsimp only at hrun
        rw [appendStatesA_getLastD_running] at hrun
        simp at hrun
      · subst h
        simp
  | midFail ls err =>
    simp only [run_terraform_apply_async] at hs
    rcases List.mem_append.mp hs with h | h
    · rcases List.mem_append.mp h with h1 | h2
      · simp only [List.mem_cons, List.not_mem_nil, or_false] at h1
        rcases h1 with h | h | h | h
        all_goals subst h
        all_goals simp_all
      · have := (appendStatesA_fields _ _ s h2).1
        dsimp only at this
        rw [this] at hrun
        exact absurd hrun (by simp)
    · simp only [List.mem_cons, List.not_mem_nil, or_false] at h
      rcases h with h | h | h
      · subst h
        dsimp only at hrun
        rw [appendStatesA_getLastD_running] at hrun
        simp at hrun
      · subst h
        simp
      · subst h
        simp

/-- Witness for C3 at a concrete run. -/
theorem C3_witness :
    (({ running := false, output := [], success := some true,
        template := some ['x'] } : RunStatusA) ∈
      run_terraform_apply_async ['x'] (.completed [] 0)
        { running := false, output := [], success := none, template := none }) ∧
    (({ running := false, output := [], success := some true,
        template := some ['x'] } : RunStatusA)).success.isSome :=
  ⟨by decide,
    C3_success_set_before_running_false ['x'] (.completed [] 0)
      { running := false, output := [], success := none, template := none }
      _ (by decide) (by decide)⟩

end WC

namespace WC

theorem appendStatesA_getLastD_template (s : RunStatusA) (ls : List (List Char)) :
    ((appendStatesA s ls).getLastD s).template = s.template := by
  rcases getLastD_mem_or (appendStatesA s ls) s with h | h
  · exact (appendStatesA_fields s ls _ h).2.2
  · rw [h]

theorem getLast?_append_pair {α : Type} (l : List α) (a b : α) :
    (l ++ [a, b]).getLast? = some b := by
  induction l with
  | nil => rfl
  | cons x xs ih =>
    rw [List.cons_append]
    have hne : xs ++ [a, b] ≠ [] := by simp
    obtain ⟨y, ys, hy⟩ := List.exists_cons_of_ne_nil hne
    rw [hy, List.getLast?_cons_cons, ← hy]
    exact ih

/-- The state after the four reset assignments of
`run_terraform_apply_async` (src/app.py 112-115). -/
def resetA (t : List Char) (s0 : RunStatusA) : RunStatusA :=
  { s0 with running := true, output := [], success := none, template := some t }

/-- C7.  A launch failure settles `run_terraform_apply_async` to the same
terminal shape as a failed run: the error text is the whole `output`,
`success = false`, `running = false` — and a completed run's terminal
state has exactly the same shape, with `success` reflecting the exit
code.  There is no separate error channel in the status record. -/
theorem C7_launch_failure_same_terminal_shape
    (s0 : RunStatusA) (err t : List Char) :
    ((run_terraform_apply_async t (.launchFail err) s0).getLast? =
      some { running := false, output := err, success := some false,
             template := some t }) ∧
    (∀ (ls : List (List Char)) (code : Int), ∃ out,
      (run_terraform_apply_async t (.completed ls code) s0).getLast? =
        some { running := false, output := out,
               success := some (decide (code = 0)), template := some t }) := by
  constructor
  · rfl
  · intro ls code
    refine ⟨((appendStatesA (resetA t s0) ls).getLastD (resetA t s0)).output, ?_⟩
    simp only [run_terraform_apply_async]
    rw [getLast?_append_pair]
    rw [appendStatesA_getLastD_template]
    rfl

/-- `output` grows by appending (status record of src/app.py). -/
def outExtA (a b : RunStatusA) : Prop := ∃ u, b.output = a.output ++ u

/-- `output` grows by appending (status record of the azure-simple
variant). -/
def outExtD (a b : RunStatusD) : Prop := ∃ u, b.output = a.output ++ u

theorem chain_appendStatesA (s : RunStatusA) (ls : List (List Char))
    (rest : List RunStatusA)
    (h : List.Chain' outExtA ((appendStatesA s ls).getLastD s :: rest)) :
    List.Chain' outExtA (s :: (appendStatesA s ls ++ rest)) := by
  induction ls generalizing s with
  | nil => simpa [appendStatesA] using h
  | cons l ls' ih =>
    by_cases hl : l = []
    · rw [appendStatesA, if_pos hl] at h ⊢
      exact ih s h
    · rw [appendStatesA, if_neg hl] at h ⊢
      rw [List.getLastD_cons] at h
      rw [List.cons_append]
      exact List.chain'_cons.mpr ⟨⟨l, rfl⟩, ih _ h⟩

theorem appendStatesD_fields (s : RunStatusD) :
    ∀ ls, ∀ x ∈ appendStatesD s ls,
      x.running = s.running ∧ x.success = s.success ∧ x.command = s.command := by
  intro ls
  induction ls generalizing s with
  | nil => intro x hx; simp [appendStatesD] at hx
  | cons l rest ih =>
    intro x hx
    by_cases hl : l = []
    · rw [appendStatesD, if_pos hl] at hx
      exact ih s x hx
    · rw [appendStatesD, if_neg hl] at hx
      rcases List.mem_cons.mp hx with h1 | h2
      · subst h1; exact ⟨rfl, rfl, rfl⟩
      · exact ih { s with output := s.output ++ l } x h2

theorem chain_appendStatesD (s : RunStatusD) (ls : List (List Char))
    (rest : List RunStatusD)
    (h : List.Chain' outExtD ((appendStatesD s ls).getLastD s :: rest)) :
    List.Chain' outExtD (s :: (appendStatesD s ls ++ rest)) := by
  induction ls generalizing s with
  | nil => simpa [appendStatesD] using h
  | cons l ls' ih =>
    by_cases hl : l = []
    · rw [appendStatesD, if_pos hl] at h ⊢
      exact ih s h
    · rw [appendStatesD, if_neg hl] at h ⊢
      rw [List.getLastD_cons] at h
      rw [List.cons_append]
      exact List.chain'_cons.mpr ⟨⟨l, rfl⟩, ih _ h⟩

/-- `lStartsWith l p` is exactly "l is p extended on the right". -/
theorem lStartsWith_iff :
    ∀ (l p : List Char), lStartsWith l p = true ↔ ∃ u, l = p ++ u := by
  intro l p
  induction p generalizing l with
  | nil =>
    cases l with
    | nil => simp [lStartsWith]
    | cons a l => simp [lStartsWith]
  | cons c p ih =>
    cases l with
    | nil =>
      constructor
      · intro h
        rw [lStartsWith] at h
        exact absurd h (by simp)
      · rintro ⟨u, hu⟩
        exact absurd hu (by simp)
    | cons a l =>
      rw [lStartsWith, Bool.and_eq_true, decide_eq_true_eq]
      constructor
      · rintro ⟨h1, h2⟩
        obtain ⟨u, hu⟩ := (ih l).mp h2
        exact ⟨u, by rw [List.cons_append, h1, hu]⟩
      · rintro ⟨u, hu⟩
        rw [List.cons_append] at hu
        injection hu with h1 h2
        exact ⟨h1, (ih l).mpr ⟨u, h2⟩⟩

/-- Executable check that consecutive states of a trace only ever extend
`output`; `outChainA_iff` ties it to the `Chain'` formulation. -/
def outChainA : List RunStatusA → Bool
  | [] => true
  | [_] => true
  | a :: b :: rest => lStartsWith b.output a.output && outChainA (b :: rest)

theorem outChainA_iff :
    ∀ l : List RunStatusA, outChainA l = true ↔ List.Chain' outExtA l := by
  intro l
  induction l with
  | nil => simp [outChainA]
  | cons a t ih =>
    cases t with
    | nil => simp [outChainA]
    | cons b rest =>
      rw [outChainA, Bool.and_eq_true, List.chain'_cons, ih]
      constructor
      · rintro ⟨h1, h2⟩
        exact ⟨(lStartsWith_iff _ _).mp h1, h2⟩
      · rintro ⟨h1, h2⟩
        exact ⟨(lStartsWith_iff _ _).mpr h1, h2⟩

/-- C8 (evaluation at the failing input, with the paths on which the
property does hold).  The `except` handler of `run_terraform_apply_async`
(src/app.py 127) ASSIGNS `output = str(e)`, and the `try` encloses the
read loop, so an exception striking after partial output overwrites it:
the trace of a mid-run failure is not output-append-only.  Append-only
does hold in `run_terraform_apply_async` on the completed and the
launch-failure paths, and in the azure-simple `run_terraform_command` —
whose handler appends the error text — on every path including mid-run
failure. -/
theorem C8_error_path_overwrites_output :
    (outChainA ((run_terraform_apply_async ['T'] (.midFail [['o']] ['e'])
        { running := false, output := [], success := none,
          template := none }).drop 1) = false) ∧
    (∀ (cmd : List (List Char)) (r : ExecOutcome) (s2 : RunStatusD),
      List.Chain' outExtD ((run_terraform_command cmd r s2).drop 1)) ∧
    (∀ (t : List Char) (s0 : RunStatusA) (ls : List (List Char)) (code : Int),
      List.Chain' outExtA
        ((run_terraform_apply_async t (.completed ls code) s0).drop 1)) ∧
    (∀ (t err : List Char) (s0 : RunStatusA),
      List.Chain' outExtA
        ((run_terraform_apply_async t (.launchFail err) s0).drop 1)) := by
  refine ⟨by decide, ?_, ?_, ?_⟩
  · intro cmd r s2
    cases r with
    | launchFail err =>
      simp only [run_terraform_command, List.drop_succ_cons, List.drop_zero]
      refine List.chain'_cons.mpr ⟨⟨[], by simp⟩, ?_⟩
      refine List.chain'_cons.mpr ⟨⟨[], by simp⟩, ?_⟩
      refine List.chain'_cons.mpr ⟨⟨errTextD err, by simp⟩, ?_⟩
      refine List.chain'_cons.mpr ⟨⟨[], by simp⟩, ?_⟩
      refine List.chain'_cons.mpr ⟨⟨[], by simp⟩, ?_⟩
      exact List.chain'_singleton _
    | completed ls code =>
      simp only [run_terraform_command, List.cons_append, List.nil_append,
        List.drop_succ_cons, List.drop_zero]
      refine List.chain'_cons.mpr ⟨⟨[], by simp⟩, ?_⟩
      refine List.chain'_cons.mpr ⟨⟨[], by simp⟩, ?_⟩
      refine chain_appendStatesD _ ls [_, _] ?_
      refine List.chain'_cons.mpr ⟨⟨[], by simp⟩, ?_⟩
      refine List.chain'_cons.mpr ⟨⟨[], by simp⟩, ?_⟩
      exact List.chain'_singleton _
    | midFail ls err =>
      simp only [run_terraform_command, List.cons_append, List.nil_append,
        List.drop_succ_cons, List.drop_zero]
      refine List.chain'_cons.mpr ⟨⟨[], by simp⟩, ?_⟩
      refine List.chain'_cons.mpr ⟨⟨[], by simp⟩, ?_⟩
      refine chain_appendStatesD _ ls [_, _, _] ?_
      refine List.chain'_cons.mpr ⟨⟨errTextD err, by simp⟩, ?_⟩
      refine List.chain'_cons.mpr ⟨⟨[], by simp⟩, ?_⟩
      refine List.chain'_cons.mpr ⟨⟨[], by simp⟩, ?_⟩
      exact List.chain'_singleton _
  · intro t s0 ls code
    simp only [run_terraform_apply_async, List.cons_append, List.nil_append,
      List.drop_succ_cons, List.drop_zero]
    refine List.chain'_cons.mpr ⟨⟨[], by simp⟩, ?_⟩
    refine List.chain'_cons.mpr ⟨⟨[], by simp⟩, ?_⟩
    refine chain_appendStatesA _ ls [_, _] ?_
    refine List.chain'_cons.mpr ⟨⟨[], by simp⟩, ?_⟩
    refine List.chain'_cons.mpr ⟨⟨[], by simp⟩, ?_⟩
    exact List.chain'_singleton _
  · intro t err s0
    simp only [run_terraform_apply_async, List.drop_succ_cons, List.drop_zero]
    refine List.chain'_cons.mpr ⟨⟨[], by simp⟩, ?_⟩
    refine List.chain'_cons.mpr ⟨⟨[], by simp⟩, ?_⟩
    refine List.chain'_cons.mpr ⟨⟨err, by simp⟩, ?_⟩
    refine List.chain'_cons.mpr ⟨⟨[], by simp⟩, ?_⟩
    refine List.chain'_cons.mpr ⟨⟨[], by simp⟩, ?_⟩
    exact List.chain'_singleton _

end WC

namespace WC

/-- A trivial stand-in for `json.loads` used in concrete evaluations
(every input fails to parse). -/
def jpNone : List Char → Option SMap := fun _ => none

/-- C1 (evaluation at the failing input).  In the merge loop of
`configure`, a `Bool` key whose checkbox field is absent from the form is
left unchanged — `enabled` stays `true`, where the claim requires
`false`.  When the field is present, the stored value is `true` exactly
when the submitted value is `'on'`. -/
theorem C1_absent_checkbox_leaves_bool_unchanged :
    (mergeFormFields jpNone
        [(['e', 'n', 'a', 'b', 'l', 'e', 'd'], Val.bool true)] [] =
      [(['e', 'n', 'a', 'b', 'l', 'e', 'd'], Val.bool true)]) ∧
    (mergeFormFields jpNone
        [(['e', 'n', 'a', 'b', 'l', 'e', 'd'], Val.bool true)]
        [(['e', 'n', 'a', 'b', 'l', 'e', 'd'], ['o', 'n'])] =
      [(['e', 'n', 'a', 'b', 'l', 'e', 'd'], Val.bool true)]) ∧
    (mergeFormFields jpNone
        [(['e', 'n', 'a', 'b', 'l', 'e', 'd'], Val.bool true)]
        [(['e', 'n', 'a', 'b', 'l', 'e', 'd'], ['x'])] =
      [(['e', 'n', 'a', 'b', 'l', 'e', 'd'], Val.bool false)]) := by
  refine ⟨by decide, by decide, by decide⟩

/-- C2 (evaluation at the failing input).  The azure-simple `run_command`
route rejects a `Start` while a run is in flight, spawns nothing and
leaves the status untouched; but the `configure` POST of `src/app.py`
triggers `run_terraform_apply_async` with no such check: from a state
with `running = true` and non-empty `output`, the spawned run's second
state has already reset `output` to the empty string — the in-flight
run's output is altered and no rejection is signalled. -/
theorem C2_second_start_rejected_only_in_run_command :
    (run_command
        { running := true, output := ['o'], success := none,
          command := some ['c'] } ['a', 'p', 'p', 'l', 'y'] =
      { error := some alreadyRunningMsg, spawned := false,
        status := { running := true, output := ['o'], success := none,
                    command := some ['c'] } }) ∧
    ((configureTrigger ['T'] (.completed [] 0)
        { running := true, output := ['o'], success := none,
          template := some ['S'] }).get? 1 =
      some { running := true, output := [], success := none,
             template := some ['S'] }) := by
  refine ⟨by decide, by decide⟩

end WC

namespace WC

/-! ## Key-set lemmas for the merge operations -/

theorem odKeys_cons {α : Type} (e : List Char × α)
    (d : List (List Char × α)) :
    odKeys (e :: d) = e.1 :: odKeys d := rfl

theorem odKeys_odInsert {α : Type} (k : List Char) (v : α)
    (d : List (List Char × α)) :
    odKeys (odInsert k v d) =
      if k ∈ odKeys d then odKeys d else odKeys d ++ [k] := by
  induction d with
  | nil =>
    rw [odInsert]
    rw [if_neg (by intro h; exact List.not_mem_nil k h)]
    rfl
  | cons e rest ih =>
    rcases e with ⟨k', v'⟩
    rw [odInsert]
    by_cases hk : k' = k
    · subst hk
      rw [if_pos rfl, odKeys_cons, odKeys_cons]
      rw [if_pos (List.mem_cons_self _ _)]
    · rw [if_neg hk, odKeys_cons, odKeys_cons, ih]
      have hkk : k ≠ k' := fun h => hk h.symm
      by_cases hm : k ∈ odKeys rest
      · rw [if_pos hm, if_pos (List.mem_cons_of_mem _ hm)]
      · rw [if_neg hm]
        rw [if_neg (by
          intro h
          rcases List.mem_cons.mp h with h1 | h2
          · exact hkk h1
          · exact hm h2)]
        rw [List.cons_append]

theorem odLookup_isSome_iff_mem {α : Type} (k : List Char)
    (d : List (List Char × α)) :
    (odLookup k d).isSome ↔ k ∈ odKeys d := by
  induction d with
  | nil =>
    rw [odLookup]
    constructor
    · intro h; exact absurd h (by intro hc; cases hc)
    · intro h; exact absurd h (List.not_mem_nil k)
  | cons e rest ih =>
    rcases e with ⟨k', v'⟩
    rw [odKeys_cons]
    by_cases hk : k' = k
    · subst hk
      rw [odLookup, if_pos rfl]
      constructor
      · intro _; exact List.mem_cons_self _ _
      · intro _; rfl
    · rw [odLookup, if_neg hk]
      rw [ih]
      constructor
      · intro h; exact List.mem_cons_of_mem _ h
      · intro h
        rcases List.mem_cons.mp h with h1 | h2
        · exact absurd h1.symm hk
        · exact h2

theorem mergeStep_keys (jp : List Char → Option SMap) (form : Form)
    (d : Config) (k : List Char) :
    odKeys (mergeStep jp form d k) = odKeys d := by
  rw [mergeStep]
  rcases h : odLookup k d with _ | v
  · rfl
  · have hm : k ∈ odKeys d := by
      rw [← odLookup_isSome_iff_mem k d, h]; rfl
    rcases v with s | b | m | xs
    · rw [odKeys_odInsert, if_pos hm]
    · rw [odKeys_odInsert, if_pos hm]
    · rcases jp ((odLookup k form).getD []) with _ | m2
      · rfl
      · rw [odKeys_odInsert, if_pos hm]
    · rw [odKeys_odInsert, if_pos hm]

theorem foldl_mergeStep_keys (jp : List Char → Option SMap) (form : Form)
    (l : List (List Char × List Char)) (d : Config) :
    odKeys (l.foldl (fun d e => mergeStep jp form d e.1) d) = odKeys d := by
  induction l generalizing d with
  | nil => rfl
  | cons e rest ih =>
    rw [List.foldl_cons, ih, mergeStep_keys]

theorem mergeFormFields_keys (jp : List Char → Option SMap) (d : Config)
    (form : Form) :
    odKeys (mergeFormFields jp d form) = odKeys d :=
  foldl_mergeStep_keys jp form form d

theorem foldl_mergeIndex_keys (jp : List Char → Option SMap) (form : Form)
    (l : List (List Char × List Char)) (d : Config) :
    odKeys (l.foldl
      (fun d e =>
        if e.1 = ['u', 'p', 'd', 'a', 't', 'e'] then d
        else mergeStep jp form d e.1) d) = odKeys d := by
  induction l generalizing d with
  | nil => rfl
  | cons e rest ih =>
    rw [List.foldl_cons]
    by_cases he : e.1 = ['u', 'p', 'd', 'a', 't', 'e']
    · rw [if_pos he, ih]
    · rw [if_neg he, ih, mergeStep_keys]

theorem mergeIndexLoop_keys (jp : List Char → Option SMap) (d : Config)
    (form : Form) :
    odKeys (mergeIndexLoop jp d form) = odKeys d :=
  foldl_mergeIndex_keys jp form form d

theorem applyTag_keys (form : Form) (d : Config) (tk : List Char) :
    odKeys (applyTag form d tk) = odKeys d := by
  rw [applyTag]
  by_cases hk : pystrip ((odLookup tk form).getD []) = []
  · simp only [hk, ite_true]
  · simp only [hk, ite_false]
    rcases h : odLookup tagsKey d with _ | v
    · simp only [h]
    · rcases v with s | b | m | xs
      · simp only [h]
      · simp only [h]
      · have hm : tagsKey ∈ odKeys d := by
          rw [← odLookup_isSome_iff_mem tagsKey d, h]; rfl
        simp only [h]
        rw [odKeys_odInsert, if_pos hm]
      · simp only [h]

theorem foldl_applyTag_keys (form : Form) (ks : List (List Char))
    (d : Config) :
    odKeys (ks.foldl (applyTag form) d) = odKeys d := by
  induction ks generalizing d with
  | nil => rfl
  | cons tk rest ih =>
    rw [List.foldl_cons, ih, applyTag_keys]

end WC

namespace WC

theorem mergeIndexUpdate_keys (jp : List Char → Option SMap) (d : Config)
    (form : Form) :
    odKeys (mergeIndexUpdate jp d form) =
      if tagsKey ∈ odKeys d then odKeys d else odKeys d ++ [tagsKey] := by
  rw [mergeIndexUpdate]
  rw [foldl_applyTag_keys, odKeys_odInsert, mergeIndexLoop_keys]

/-- C9 (counterexample).  The `update` branch of `index`
(src/deploy.py) does not leave the key set unchanged: on an empty
`ConfigSet` and an empty form it still rebinds `tags`, adding a key. -/
theorem C9_counterexample_index_adds_tags :
    odKeys (mergeIndexUpdate jpNone ([] : Config) ([] : Form)) ≠
      odKeys ([] : Config) := by decide

/-- C9 (amended).  The field-update loop itself preserves the key set
exactly — update entries whose names are not keys of the `ConfigSet` are
ignored; the `index` handler of src/deploy.py afterwards always rebinds
`tags`, so its result key set is the original one with `tags` appended
when absent. -/
theorem C9_merge_key_sets (jp : List Char → Option SMap) (d : Config)
    (form : Form) :
    (odKeys (mergeFormFields jp d form) = odKeys d) ∧
    (odKeys (mergeIndexUpdate jp d form) =
      if tagsKey ∈ odKeys d then odKeys d else odKeys d ++ [tagsKey]) :=
  ⟨mergeFormFields_keys jp d form, mergeIndexUpdate_keys jp d form⟩

end WC


namespace WC

/-! ## Lemmas about the Python string primitives -/

theorem dropWS_cons_space {c : Char} (h : pySpace c = true) (l : List Char) :
    dropWS (c :: l) = dropWS l := by
  simp [dropWS, List.dropWhile_cons, h]

theorem dropWS_cons_not {c : Char} (h : pySpace c = false) (l : List Char) :
    dropWS (c :: l) = c :: l := by
  simp [dropWS, List.dropWhile_cons, h]

theorem dropWS_nil : dropWS [] = [] := rfl

theorem dropWSR_nil : dropWSR [] = [] := rfl

/-- The left-trimmed list is a suffix of the input, witnessed explicitly. -/
theorem dropWS_exists (l : List Char) : ∃ s, l = s ++ dropWS l := by
  induction l with
  | nil => exact ⟨[], rfl⟩
  | cons c l ih =>
    by_cases h : pySpace c = true
    · rcases ih with ⟨s, hs⟩
      rw [dropWS_cons_space h]
      exact ⟨c :: s, by rw [List.cons_append, ← hs]⟩
    · rw [dropWS_cons_not (by simpa using h)]
      exact ⟨[], rfl⟩

theorem dropWS_length (l : List Char) : (dropWS l).length ≤ l.length := by
  rcases dropWS_exists l with ⟨s, hs⟩
  have := congrArg List.length hs
  rw [List.length_append] at this
  omega

theorem dropWS_idem (l : List Char) : dropWS (dropWS l) = dropWS l := by
  induction l with
  | nil => rfl
  | cons c l ih =>
    by_cases h : pySpace c = true
    · rw [dropWS_cons_space h, ih]
    · rw [dropWS_cons_not (by simpa using h),
        dropWS_cons_not (by simpa using h)]

/-- A `dropWS`-fixed nonempty list has a non-whitespace head. -/
theorem dropWS_fixed_head {c : Char} {l : List Char}
    (h : dropWS (c :: l) = c :: l) : pySpace c = false := by
  by_contra hc
  have h0 : pySpace c = true := by
    cases hs : pySpace c
    · exact absurd hs hc
    · rfl
  rw [dropWS_cons_space h0] at h
  have := dropWS_length l
  rw [h] at this
  simp at this

theorem dropWSR_concat_not {c : Char} (h : pySpace c = false) (l : List Char) :
    dropWSR (l ++ [c]) = l ++ [c] := by
  rw [dropWSR, List.reverse_append]
  simp only [List.reverse_cons, List.reverse_nil, List.nil_append,
    List.singleton_append]
  rw [dropWS_cons_not h, List.reverse_cons, List.reverse_reverse]

theorem dropWSR_concat_space {c : Char} (h : pySpace c = true) (l : List Char) :
    dropWSR (l ++ [c]) = dropWSR l := by
  rw [dropWSR, List.reverse_append]
  simp only [List.reverse_cons, List.reverse_nil, List.nil_append,
    List.singleton_append]
  rw [dropWS_cons_space h, dropWSR]

theorem dropWSR_exists (l : List Char) : ∃ s, l = dropWSR l ++ s := by
  rcases dropWS_exists l.reverse with ⟨s, hs⟩
  refine ⟨s.reverse, ?_⟩
  have h2 := congrArg List.reverse hs
  rw [List.reverse_reverse, List.reverse_append] at h2
  rw [dropWSR]
  exact h2

theorem dropWSR_length (l : List Char) : (dropWSR l).length ≤ l.length := by
  rcases dropWSR_exists l with ⟨s, hs⟩
  have := congrArg List.length hs
  rw [List.length_append] at this
  omega

theorem dropWSR_idem (l : List Char) : dropWSR (dropWSR l) = dropWSR l := by
  rw [dropWSR, dropWSR, List.reverse_reverse, dropWS_idem]

theorem pystrip_length (l : List Char) : (pystrip l).length ≤ l.length := by
  rw [pystrip]
  calc (dropWSR (dropWS l)).length ≤ (dropWS l).length := dropWSR_length _
    _ ≤ l.length := dropWS_length _

theorem pystrip_nil : pystrip [] = [] := rfl

/-- Left-trimming is preserved by right-trimming. -/
theorem dropWS_dropWSR {l : List Char} (h : dropWS l = l) :
    dropWS (dropWSR l) = dropWSR l := by
  rcases hr : dropWSR l with _ | ⟨c, t⟩
  · rfl
  · rcases dropWSR_exists l with ⟨s, hs⟩
    rw [hr] at hs
    have h2 : (c :: (t ++ s) : List Char) = l := by
      rw [hs, List.cons_append]
    have hc : pySpace c = false := by
      refine dropWS_fixed_head (l := t ++ s) ?_
      rw [h2]
      exact h
    exact dropWS_cons_not hc t

theorem pystrip_idem (l : List Char) : pystrip (pystrip l) = pystrip l := by
  rw [pystrip, pystrip]
  rw [dropWS_dropWSR (dropWS_idem l), dropWSR_idem]

/-- `pystrip` of a list with non-whitespace first and last characters. -/
theorem pystrip_fixed {a b : Char} (ha : pySpace a = false)
    (hb : pySpace b = false) (m : List Char) :
    pystrip (a :: m ++ [b]) = a :: m ++ [b] := by
  rw [pystrip]
  rw [show (a :: m ++ [b] : List Char) = a :: (m ++ [b]) from rfl]
  rw [dropWS_cons_not ha]
  rw [show (a :: (m ++ [b]) : List Char) = (a :: m) ++ [b] from rfl]
  rw [dropWSR_concat_not hb]

theorem pystrip_single {a : Char} (ha : pySpace a = false) :
    pystrip [a] = [a] := by
  rw [pystrip, dropWS_cons_not ha]
  rw [show ([a] : List Char) = [] ++ [a] from rfl]
  rw [dropWSR_concat_not ha]

/-- A `pystrip`-fixed nonempty list has a non-whitespace head. -/
theorem pystrip_fixed_head {k0 : Char} {k' : List Char}
    (h : pystrip (k0 :: k') = k0 :: k') : pySpace k0 = false := by
  by_contra hc
  have h0 : pySpace k0 = true := by
    cases hs : pySpace k0
    · exact absurd hs hc
    · rfl
  have hlen : (pystrip (k0 :: k')).length ≤ k'.length := by
    rw [pystrip, dropWS_cons_space h0]
    calc (dropWSR (dropWS k')).length ≤ (dropWS k').length := dropWSR_length _
      _ ≤ k'.length := dropWS_length _
  rw [h] at hlen
  simp at hlen

end WC

namespace WC

theorem lStartsWith_single (c p : Char) (l : List Char) :
    lStartsWith (c :: l) [p] = decide (c = p) := by
  rcases l with _ | ⟨x, xs⟩
  · simp [lStartsWith]
  · simp [lStartsWith]

theorem lEndsWith_concat (c p : Char) (l : List Char) :
    lEndsWith (l ++ [c]) [p] = decide (c = p) := by
  rw [lEndsWith, List.reverse_append]
  simp only [List.reverse_cons, List.reverse_nil, List.nil_append,
    List.singleton_append]
  exact lStartsWith_single c p l.reverse

theorem lEndsWith_nil (p : Char) : lEndsWith [] [p] = false := rfl

theorem contains_iff (l : List Char) (c : Char) :
    l.contains c = true ↔ c ∈ l := by
  induction l with
  | nil => simp
  | cons x xs ih =>
    by_cases hx : x = c
    · subst hx; simp
    · simp only [List.contains_cons]
      constructor
      · intro h
        rcases Bool.or_eq_true_iff.mp h with h1 | h2
        · exact absurd (beq_iff_eq.mp h1).symm hx
        · exact List.mem_cons_of_mem _ (ih.mp h2)
      · intro h
        rcases List.mem_cons.mp h with h1 | h2
        · exact absurd h1.symm hx
        · exact Bool.or_eq_true_iff.mpr (Or.inr (ih.mpr h2))

/-! ### `stripAll` (Python `str.strip(c)`) -/

theorem dropAllL_cons_eq (c : Char) (l : List Char) :
    dropAllL c (c :: l) = dropAllL c l := by
  simp [dropAllL, List.dropWhile_cons]

theorem dropAllL_cons_ne {a c : Char} (h : a ≠ c) (l : List Char) :
    dropAllL c (a :: l) = a :: l := by
  simp [dropAllL, List.dropWhile_cons, h]

theorem dropAllL_nil (c : Char) : dropAllL c [] = [] := rfl

theorem dropAllL_exists (c : Char) (l : List Char) :
    ∃ s, l = s ++ dropAllL c l := by
  induction l with
  | nil => exact ⟨[], rfl⟩
  | cons a l ih =>
    by_cases h : a = c
    · subst h
      rcases ih with ⟨s, hs⟩
      rw [dropAllL_cons_eq]
      exact ⟨a :: s, by rw [List.cons_append, ← hs]⟩
    · rw [dropAllL_cons_ne h]
      exact ⟨[], rfl⟩

theorem dropAllL_head (c : Char) (l : List Char) :
    (dropAllL c l).head? ≠ some c := by
  induction l with
  | nil => simp [dropAllL]
  | cons a l ih =>
    by_cases h : a = c
    · subst h; rw [dropAllL_cons_eq]; exact ih
    · rw [dropAllL_cons_ne h]
      simp [h]

theorem mem_of_mem_dropAllL {x c : Char} {l : List Char}
    (h : x ∈ dropAllL c l) : x ∈ l := by
  rcases dropAllL_exists c l with ⟨s, hs⟩
  rw [hs]
  exact List.mem_append_right s h

theorem mem_of_mem_stripAll {x c : Char} {l : List Char}
    (h : x ∈ stripAll c l) : x ∈ l := by
  rw [stripAll] at h
  rw [List.mem_reverse] at h
  have h2 := mem_of_mem_dropAllL h
  rw [List.mem_reverse] at h2
  exact mem_of_mem_dropAllL h2

theorem mem_of_mem_dropWS {x : Char} {l : List Char}
    (h : x ∈ dropWS l) : x ∈ l := by
  rcases dropWS_exists l with ⟨s, hs⟩
  rw [hs]
  exact List.mem_append_right s h

theorem mem_of_mem_pystrip {x : Char} {l : List Char}
    (h : x ∈ pystrip l) : x ∈ l := by
  rw [pystrip] at h
  rcases dropWSR_exists (dropWS l) with ⟨s, hs⟩
  have h2 : x ∈ dropWS l := by
    rw [hs]
    exact List.mem_append_left s h
  exact mem_of_mem_dropWS h2

/-- Python `'x'.strip(c)` leaves a list whose ends are not `c`. -/
theorem stripAll_head (c : Char) (l : List Char) :
    (stripAll c l).head? ≠ some c := by
  rw [stripAll]
  intro h
  rcases hx : dropAllL c (dropAllL c l).reverse with _ | ⟨y, ys⟩
  · rw [hx] at h; simp at h
  · rw [hx] at h
    -- head of the reverse is the last element of y :: ys
    rcases dropAllL_exists c (dropAllL c l).reverse with ⟨s, hs⟩
    rw [hx] at hs
    have hlast : (y :: ys).getLast? = some c := by
      rw [← List.head?_reverse]
      exact h
    -- the last element of `y :: ys` is the last of the reverse of
    -- `dropAllL c l`, i.e. the head of `dropAllL c l`
    have h2 : ((dropAllL c l).reverse).getLast? = some c := by
      rw [hs]
      rw [List.getLast?_append_of_ne_nil]
      · exact hlast
      · intro hc; cases hc
    rw [List.getLast?_reverse] at h2
    exact dropAllL_head c l h2

theorem stripAll_getLast (c : Char) (l : List Char) :
    (stripAll c l).getLast? ≠ some c := by
  rw [stripAll]
  rw [List.getLast?_reverse]
  exact dropAllL_head c _

theorem stripAll_nil (c : Char) : stripAll c [] = [] := rfl

/-- `stripAll` is the identity when neither end is the stripped
character. -/
theorem stripAll_fixed {a b c : Char} (ha : a ≠ c) (hb : b ≠ c)
    (m : List Char) :
    stripAll c (a :: m ++ [b]) = a :: m ++ [b] := by
  have e1 : dropAllL c (a :: m ++ [b]) = a :: m ++ [b] := by
    rw [show (a :: m ++ [b] : List Char) = a :: (m ++ [b]) from rfl]
    rw [dropAllL_cons_ne ha]
  have e2 : (a :: m ++ [b]).reverse = b :: (a :: m).reverse := by simp
  have e3 : dropAllL c (b :: (a :: m).reverse) = b :: (a :: m).reverse :=
    dropAllL_cons_ne hb _
  rw [stripAll, e1, e2, e3]
  simp

theorem stripAll_single {a c : Char} (ha : a ≠ c) :
    stripAll c [a] = [a] := by
  rw [stripAll]
  rw [show dropAllL c [a] = [a] from dropAllL_cons_ne ha _]
  rw [show ([a] : List Char).reverse = [a] from by simp]
  rw [show dropAllL c [a] = [a] from dropAllL_cons_ne ha _]
  simp

/-- Stripping `c` from a `c`-wrapped list recovers the kernel when the
kernel's own ends are not `c`. -/
theorem stripAll_wrap {c : Char} (z : List Char)
    (h1 : z.head? ≠ some c) (h2 : z.getLast? ≠ some c) :
    stripAll c (c :: z ++ [c]) = z := by
  rcases z with _ | ⟨z0, z'⟩
  · rw [stripAll]
    rw [show (c :: ([] : List Char) ++ [c]) = c :: (c :: []) from by simp]
    rw [dropAllL_cons_eq, dropAllL_cons_eq, dropAllL_nil]
    rfl
  · have hz0 : z0 ≠ c := by simpa using h1
    rcases List.eq_nil_or_concat (z0 :: z') with h | ⟨m, b, hm⟩
    · simp at h
    · rw [List.concat_eq_append] at hm
      have hb : b ≠ c := by
        rw [hm] at h2
        simpa [List.getLast?_concat] using h2
      rw [hm]
      have e1 : dropAllL c (c :: (m ++ [b]) ++ [c]) = (m ++ [b]) ++ [c] := by
        rw [show (c :: (m ++ [b]) ++ [c] : List Char) =
          c :: ((m ++ [b]) ++ [c]) from rfl]
        rw [dropAllL_cons_eq]
        rw [show ((m ++ [b]) ++ [c] : List Char) = m ++ [b] ++ [c] from rfl]
        rw [← hm]
        rw [show ((z0 :: z') ++ [c] : List Char) = z0 :: (z' ++ [c]) from rfl]
        rw [dropAllL_cons_ne hz0]
      have e2 : ((m ++ [b]) ++ [c]).reverse = c :: (b :: m.reverse) := by simp
      have e3 : dropAllL c (c :: (b :: m.reverse)) = b :: m.reverse := by
        rw [dropAllL_cons_eq, dropAllL_cons_ne hb]
      rw [stripAll, e1, e2, e3]
      simp

end WC

namespace WC

/-! ## Ordered-dict lemmas -/

theorem odInsert_fresh {α : Type} {k : List Char} (v : α)
    {d : List (List Char × α)} (h : k ∉ odKeys d) :
    odInsert k v d = d ++ [(k, v)] := by
  induction d with
  | nil => rfl
  | cons e rest ih =>
    rcases e with ⟨k', v'⟩
    have hk : k' ≠ k := by
      intro hc
      exact h (by rw [hc, odKeys_cons]; exact List.mem_cons_self _ _)
    rw [odInsert, if_neg hk, List.cons_append]
    congr 1
    refine ih ?_
    intro hc
    exact h (by rw [odKeys_cons]; exact List.mem_cons_of_mem _ hc)

theorem odKeys_append {α : Type} (d e : List (List Char × α)) :
    odKeys (d ++ e) = odKeys d ++ odKeys e := by
  simp [odKeys]

theorem odInsert_nodup {α : Type} (k : List Char) (v : α)
    (d : List (List Char × α)) (h : (odKeys d).Nodup) :
    (odKeys (odInsert k v d)).Nodup := by
  rw [odKeys_odInsert]
  by_cases hm : k ∈ odKeys d
  · rw [if_pos hm]; exact h
  · rw [if_neg hm]
    simp [List.nodup_append, h, hm]

/-! ## Splitting and joining lines -/

theorem splitNL_ne_nil (l : List Char) : splitNL l ≠ [] := by
  induction l with
  | nil => simp [splitNL]
  | cons c cs ih =>
    rw [splitNL]
    by_cases h : c = '\n'
    · simp [h]
    · rcases hs : splitNL cs with _ | ⟨x, xs⟩
      · simp [h, hs]
      · simp [h, hs]

theorem splitNL_no_nl (l : List Char) (h : '\n' ∉ l) : splitNL l = [l] := by
  induction l with
  | nil => rfl
  | cons c cs ih =>
    have hc : c ≠ '\n' := by intro hc; exact h (by simp [hc])
    have hcs : '\n' ∉ cs := fun hm => h (List.mem_cons_of_mem _ hm)
    rw [splitNL, if_neg hc, ih hcs]

theorem splitNL_append (l rest : List Char) (h : '\n' ∉ l) :
    splitNL (l ++ '\n' :: rest) = l :: splitNL rest := by
  induction l with
  | nil =>
    rw [List.nil_append, splitNL, if_pos rfl]
  | cons c cs ih =>
    have hc : c ≠ '\n' := by intro hc; exact h (by simp [hc])
    have hcs : '\n' ∉ cs := fun hm => h (List.mem_cons_of_mem _ hm)
    rw [List.cons_append, splitNL, if_neg hc, ih hcs]

theorem splitNL_mem_no_nl (content : List Char) :
    ∀ x ∈ splitNL content, '\n' ∉ x := by
  induction content with
  | nil =>
    intro x hx
    simp [splitNL] at hx
    simp [hx]
  | cons c cs ih =>
    intro x hx
    rw [splitNL] at hx
    by_cases h : c = '\n'
    · rw [if_pos h] at hx
      rcases List.mem_cons.mp hx with h1 | h2
      · simp [h1]
      · exact ih x h2
    · rw [if_neg h] at hx
      rcases hs : splitNL cs with _ | ⟨y, ys⟩
      · exact absurd hs (splitNL_ne_nil cs)
      · rw [hs] at hx
        rcases List.mem_cons.mp hx with h1 | h2
        · subst h1
          intro hm
          rcases List.mem_cons.mp hm with h3 | h4
          · exact h h3.symm
          · exact ih y (by rw [hs]; exact List.mem_cons_self _ _) h4
        · exact ih x (by rw [hs]; exact List.mem_cons_of_mem _ h2)

theorem splitNL_joinNL (L : List (List Char)) (hne : L ≠ [])
    (h : ∀ l ∈ L, '\n' ∉ l) : splitNL (joinNL L) = L := by
  induction L with
  | nil => exact absurd rfl hne
  | cons l ls ih =>
    rcases ls with _ | ⟨l2, ls'⟩
    · rw [joinNL]
      exact splitNL_no_nl l (h l (List.mem_cons_self _ _))
    · rw [show joinNL (l :: l2 :: ls') = l ++ '\n' :: joinNL (l2 :: ls')
        from rfl]
      rw [splitNL_append _ _ (h l (List.mem_cons_self _ _))]
      rw [ih (by simp) (fun x hx => h x (List.mem_cons_of_mem _ hx))]

end WC

namespace WC

/-! ## Fuel irrelevance and totality of the parser -/

theorem parseLines_def (ls : List (List Char)) (d : Config) :
    parseLinesF ls.length ls d = parseLines ls d := rfl

theorem parseLinesF_fuel :
    ∀ (f : Nat) (ls : List (List Char)) (d : Config), ls.length ≤ f →
      parseLinesF f ls d = parseLines ls d := by
  intro f
  induction f using Nat.strong_induction_on with
  | _ f ih =>
    intro ls d hle
    rcases ls with _ | ⟨l, rest⟩
    · cases f <;> rfl
    · rcases f with _ | f'
      · simp at hle
      · have hr : rest.length ≤ f' := by
          simp only [List.length_cons] at hle; omega
        have hf : f' < f' + 1 := Nat.lt_succ_self f'
        have hf2 : rest.length < f' + 1 := Nat.lt_succ_of_le hr
        have ihr : ∀ d' : Config, parseLinesF f' rest d' = parseLines rest d' :=
          fun d' => ih f' hf rest d' hr
        have hlen : (collectMapLines rest).2.length ≤ rest.length :=
          collectMapLines_snd_length rest
        have ihp : ∀ d' : Config,
            parseLinesF f' (collectMapLines rest).2 d' =
              parseLines (collectMapLines rest).2 d' :=
          fun d' => ih f' hf _ d' (le_trans hlen hr)
        have ihp2 : ∀ d' : Config,
            parseLinesF rest.length (collectMapLines rest).2 d' =
              parseLines (collectMapLines rest).2 d' :=
          fun d' => ih rest.length hf2 _ d' hlen
        rw [parseLines]
        show parseLinesF (f' + 1) (l :: rest) d =
          parseLinesF (rest.length + 1) (l :: rest) d
        rw [parseLinesF, parseLinesF]
        rcases hs : splitFirst '=' (pystrip l) with _ | ⟨kp, vp⟩
        · simp only [hs, ihr, parseLines_def]
        · simp only [hs, ihr, ihp, ihp2, parseLines_def]

end WC

namespace WC

theorem parseMapLines_total :
    ∀ (mls : List (List Char)) (m : SMap), (parseMapLines mls m).isSome := by
  intro mls
  induction mls with
  | nil => intro m; rfl
  | cons ml rest ih =>
    intro m
    rw [parseMapLines]
    by_cases hg : ((pystrip ml).contains ':' &&
        !(lStartsWith (pystrip ml) ['#'])) = true
    · rw [if_pos hg]
      have hc : ':' ∈ pystrip ml :=
        (contains_iff _ _).mp ((Bool.and_eq_true _ _).mp hg).1
      rcases ho : splitFirst ':' (pystrip ml) with _ | ⟨a, b⟩
      · have hi := splitFirst_isSome ':' _ hc
        rw [ho] at hi
        simp at hi
      · simp only [ho]
        exact ih _
    · rw [if_neg hg]
      exact ih m

theorem parseLinesF_total :
    ∀ (f : Nat) (ls : List (List Char)) (d : Config),
      (parseLinesF f ls d).isSome := by
  intro f
  induction f with
  | zero => intro ls d; cases ls <;> rfl
  | succ f' ih =>
    intro ls d
    rcases ls with _ | ⟨l, rest⟩
    · rfl
    · rw [parseLinesF]
      by_cases hg : ((pystrip l).contains '=' &&
          !(lStartsWith (pystrip l) ['#'])) = true
      · rw [if_pos hg]
        have hc : '=' ∈ pystrip l :=
          (contains_iff _ _).mp ((Bool.and_eq_true _ _).mp hg).1
        rcases ho : splitFirst '=' (pystrip l) with _ | ⟨kp, vp⟩
        · have hi := splitFirst_isSome '=' _ hc
          rw [ho] at hi
          simp at hi
        · simp only [ho]
          split_ifs with h1 h2 h3 h4
          · exact ih _ _
          · exact ih _ _
          · exact ih _ _
          · rcases hm : parseMapLines
                (pystrip vp :: (collectMapLines rest).1) [] with _ | mm
            · have := parseMapLines_total
                (pystrip vp :: (collectMapLines rest).1) []
              rw [hm] at this
              simp at this
            · simp only [hm]
              exact ih _ _
          · exact ih _ _
      · rw [if_neg hg]
        exact ih rest d

/-- The parser is total: it never reaches a raising state. -/
theorem parseLines_total (ls : List (List Char)) (d : Config) :
    ∃ d', parseLines ls d = some d' := by
  have := parseLinesF_total ls.length ls d
  rcases h : parseLines ls d with _ | d'
  · rw [parseLines] at h
    rw [h] at this
    simp at this
  · exact ⟨d', rfl⟩

end WC

namespace WC

theorem pystrip_cons_space {c : Char} (h : pySpace c = true) (l : List Char) :
    pystrip (c :: l) = pystrip l := by
  rw [pystrip, dropWS_cons_space h, pystrip]

/-- A `pystrip`-fixed list ends in a non-whitespace character. -/
theorem pystrip_fixed_last {m : List Char} {b : Char}
    (h : pystrip (m ++ [b]) = m ++ [b]) : pySpace b = false := by
  by_contra hc
  have hb : pySpace b = true := by
    cases hs : pySpace b
    · exact absurd hs hc
    · rfl
  rcases hh : m ++ [b] with _ | ⟨x0, xs⟩
  · simp at hh
  · have hx0 : pySpace x0 = false := by
      refine @pystrip_fixed_head x0 xs ?_
      rw [← hh]
      exact h
    have h1 : pystrip (m ++ [b]) = dropWSR (m ++ [b]) := by
      rw [pystrip, hh, dropWS_cons_not hx0, ← hh]
    rw [dropWSR_concat_space hb] at h1
    have h2 := dropWSR_length m
    rw [← h1, h] at h2
    simp at h2

theorem dropWS_append_last {b : Char} (l : List Char) :
    (hb : pySpace b = false) → ∃ m, dropWS (l ++ [b]) = m ++ [b] := by
  intro hb
  induction l with
  | nil =>
    refine ⟨[], ?_⟩
    rw [List.nil_append]
    exact dropWS_cons_not hb []
  | cons c l ih =>
    by_cases h : pySpace c = true
    · rw [List.cons_append, dropWS_cons_space h]
      exact ih
    · rw [List.cons_append, dropWS_cons_not (by simpa using h)]
      exact ⟨c :: l, rfl⟩

theorem pystrip_concat_last {b : Char} (l : List Char)
    (hb : pySpace b = false) : ∃ m, pystrip (l ++ [b]) = m ++ [b] := by
  rcases dropWS_append_last l hb with ⟨m, hm⟩
  exact ⟨m, by rw [pystrip, hm, dropWSR_concat_not hb]⟩

end WC

namespace WC

theorem pystrip_mid (c : Char) (hc : pySpace c = false) (X : List Char)
    (hXfix : pystrip X = X) (hXne : X ≠ []) :
    pystrip (c :: ' ' :: X) = c :: ' ' :: X := by
  rcases List.eq_nil_or_concat X with h | ⟨xm, xb, hxm⟩
  · exact absurd h hXne
  · rw [List.concat_eq_append] at hxm
    have hxb : pySpace xb = false := by
      refine pystrip_fixed_last (m := xm) ?_
      rw [← hxm]
      exact hXfix
    rw [hxm]
    rw [show (c :: ' ' :: (xm ++ [xb]) : List Char) =
      c :: (' ' :: xm) ++ [xb] from by simp]
    exact pystrip_fixed hc hxb _

theorem pystrip_space_cons (X : List Char) (hXfix : pystrip X = X) :
    pystrip (' ' :: X) = X := by
  rw [pystrip_cons_space (by decide), hXfix]

/-- Evaluation of one parser iteration on a serialized `key = value`
line: the line is accepted, the key and the trimmed value are recovered
exactly, and the iteration reduces to the value-classification chain of
`load_tfvars`. -/
theorem parse_head_line (k X : List Char) (lsr : List (List Char))
    (d : Config)
    (hk : pystrip k = k) (hkeq : '=' ∉ k) (hhd : k.head? ≠ some '#')
    (hXfix : pystrip X = X) (hXne : X ≠ []) :
    parseLinesF (lsr.length + 1) ((k ++ ' ' :: '=' :: ' ' :: X) :: lsr) d =
      (if lStartsWith X ['"'] && lEndsWith X ['"'] then
        parseLines lsr (odInsert k (Val.str ((X.drop 1).dropLast)) d)
      else if X = ['t', 'r', 'u', 'e'] then
        parseLines lsr (odInsert k (Val.bool true) d)
      else if X = ['f', 'a', 'l', 's', 'e'] then
        parseLines lsr (odInsert k (Val.bool false) d)
      else if lStartsWith X [lbrace] then
        match parseMapLines (X :: (collectMapLines lsr).1) [] with
        | none => none
        | some m =>
          parseLinesF lsr.length (collectMapLines lsr).2
            (odInsert k (Val.map m) d)
      else parseLines lsr (odInsert k (Val.str (stripAll '"' X)) d)) := by
  have hvp : pystrip (' ' :: X) = X := pystrip_space_cons X hXfix
  rcases hk0 : k with _ | ⟨k0, k'⟩
  · have hstrip : pystrip (' ' :: '=' :: ' ' :: X) = '=' :: ' ' :: X := by
      rw [pystrip_cons_space (by decide)]
      exact pystrip_mid '=' (by decide) X hXfix hXne
    have hsplit : splitFirst '=' ('=' :: ' ' :: X) = some ([], ' ' :: X) := by
      rw [splitFirst, if_pos rfl]
    have hcont : ('=' :: ' ' :: X).contains '=' = true :=
      (contains_iff _ _).mpr (List.mem_cons_self _ _)
    have hhash : lStartsWith ('=' :: ' ' :: X) ['#'] = false := by
      rw [lStartsWith_single]
      decide
    rw [parseLinesF]
    simp only [List.nil_append, hstrip, hcont, hhash, Bool.not_false,
      Bool.and_self, if_true, hsplit, hvp, pystrip_nil, parseLines_def]
  · have hk0h : pySpace k0 = false := by
      refine @pystrip_fixed_head k0 k' ?_
      rw [← hk0]
      exact hk0 ▸ hk
    have hkh : k0 ≠ '#' := by
      rw [hk0] at hhd
      simpa using hhd
    rcases List.eq_nil_or_concat X with h | ⟨xm, xb, hxm⟩
    · exact absurd h hXne
    · rw [List.concat_eq_append] at hxm
      have hxb : pySpace xb = false := by
        refine pystrip_fixed_last (m := xm) ?_
        rw [← hxm]
        exact hXfix
      have hstrip : pystrip ((k0 :: k') ++ ' ' :: '=' :: ' ' :: X) =
          (k0 :: k') ++ ' ' :: '=' :: ' ' :: X := by
        rw [hxm]
        rw [show ((k0 :: k') ++ ' ' :: '=' :: ' ' :: (xm ++ [xb]) : List Char) =
          k0 :: (k' ++ ' ' :: '=' :: ' ' :: xm) ++ [xb] from by simp]
        exact pystrip_fixed hk0h hxb _
      have hmeq : '=' ∉ (k0 :: k') ++ [' '] := by
        intro hm
        rcases List.mem_append.mp hm with h1 | h2
        · rw [hk0] at hkeq
          exact hkeq h1
        · simp at h2
      have hsplit : splitFirst '=' ((k0 :: k') ++ ' ' :: '=' :: ' ' :: X) =
          some ((k0 :: k') ++ [' '], ' ' :: X) := by
        rw [show ((k0 :: k') ++ ' ' :: '=' :: ' ' :: X : List Char) =
          ((k0 :: k') ++ [' ']) ++ '=' :: (' ' :: X) from by simp]
        exact splitFirst_of_append '=' _ _ hmeq
      have hdk : dropWS (k0 :: k') = k0 :: k' := dropWS_cons_not hk0h _
      have hdkr : dropWSR (k0 :: k') = k0 :: k' := by
        have := hk0 ▸ hk
        rw [pystrip, hdk] at this
        exact this
      have hkp : pystrip ((k0 :: k') ++ [' ']) = k0 :: k' := by
        rw [pystrip]
        rw [show ((k0 :: k') ++ [' '] : List Char) = k0 :: (k' ++ [' ']) from
          by simp]
        rw [dropWS_cons_not hk0h]
        rw [show (k0 :: (k' ++ [' ']) : List Char) = (k0 :: k') ++ [' '] from
          by simp]
        rw [dropWSR_concat_space (by decide), hdkr]
      have hcont : ((k0 :: k') ++ ' ' :: '=' :: ' ' :: X).contains '=' = true := by
        refine (contains_iff _ _).mpr ?_
        refine List.mem_append_right _ ?_
        exact List.mem_cons_of_mem _ (List.mem_cons_self _ _)
      have hhash : lStartsWith ((k0 :: k') ++ ' ' :: '=' :: ' ' :: X)
          ['#'] = false := by
        rw [List.cons_append, lStartsWith_single]
        simp [hkh]
      rw [parseLinesF]
      simp only [hstrip, hcont, hhash, Bool.not_false, Bool.and_self,
        if_true, hsplit, hvp, hkp, parseLines_def]

end WC

namespace WC

/-- A key the parser can have produced: already stripped, free of `=`
and newlines, not starting with `#`. -/
def GoodKey (k : List Char) : Prop :=
  pystrip k = k ∧ '=' ∉ k ∧ '\n' ∉ k ∧ k.head? ≠ some '#'

instance (k : List Char) : Decidable (GoodKey k) := by
  unfold GoodKey
  infer_instance

/-- One parser step over a serialized string entry. -/
theorem step_str (k s : List Char) (lsr : List (List Char)) (d : Config)
    (hk : GoodKey k) :
    parseLines ((k ++ ' ' :: '=' :: ' ' :: '"' :: (s ++ ['"'])) :: lsr) d =
      parseLines lsr (odInsert k (Val.str s) d) := by
  obtain ⟨hk1, hk2, _, hk4⟩ := hk
  have hXfix : pystrip ('"' :: (s ++ ['"'])) = '"' :: (s ++ ['"']) :=
    pystrip_fixed (by decide) (by decide) s
  have hXne : ('"' :: (s ++ ['"']) : List Char) ≠ [] := by simp
  rw [parseLines]
  rw [show ((k ++ ' ' :: '=' :: ' ' :: '"' :: (s ++ ['"'])) :: lsr).length =
    lsr.length + 1 from by simp]
  rw [parse_head_line k _ lsr d hk1 hk2 hk4 hXfix hXne]
  have h1 : lStartsWith ('"' :: (s ++ ['"'])) ['"'] = true := by
    rw [lStartsWith_single]
    decide
  have h2 : lEndsWith ('"' :: (s ++ ['"'])) ['"'] = true := by
    rw [show ('"' :: (s ++ ['"']) : List Char) = ('"' :: s) ++ ['"'] from
      by simp]
    rw [lEndsWith_concat]
    decide
  rw [if_pos (by rw [h1, h2]; rfl)]
  congr 1
  rw [show ('"' :: (s ++ ['"']) : List Char).drop 1 = s ++ ['"'] from rfl]
  rw [List.dropLast_concat]

/-- One parser step over a serialized boolean entry. -/
theorem step_bool (k : List Char) (b : Bool) (lsr : List (List Char))
    (d : Config) (hk : GoodKey k) :
    parseLines ((k ++ ' ' :: '=' :: ' ' ::
        (if b then ['t', 'r', 'u', 'e'] else ['f', 'a', 'l', 's', 'e'])) ::
        lsr) d =
      parseLines lsr (odInsert k (Val.bool b) d) := by
  obtain ⟨hk1, hk2, _, hk4⟩ := hk
  cases b
  · rw [if_neg (by simp)]
    have hXfix : pystrip ['f', 'a', 'l', 's', 'e'] = ['f', 'a', 'l', 's', 'e'] := by
      decide
    rw [parseLines]
    rw [show ((k ++ ' ' :: '=' :: ' ' :: ['f', 'a', 'l', 's', 'e']) ::
      lsr).length = lsr.length + 1 from by simp]
    rw [parse_head_line k _ lsr d hk1 hk2 hk4 hXfix (by decide)]
    rw [if_neg (by decide), if_neg (by decide), if_pos rfl]
  · rw [if_pos rfl]
    have hXfix : pystrip ['t', 'r', 'u', 'e'] = ['t', 'r', 'u', 'e'] := by
      decide
    rw [parseLines]
    rw [show ((k ++ ' ' :: '=' :: ' ' :: ['t', 'r', 'u', 'e']) ::
      lsr).length = lsr.length + 1 from by simp]
    rw [parse_head_line k _ lsr d hk1 hk2 hk4 hXfix (by decide)]
    rw [if_neg (by decide), if_pos rfl]

/-- One parser step over a `key = value` line that falls through to the
default branch (value not quote-wrapped, not a boolean literal, not
brace-opened): the value is stored as a quote-trimmed string from this
single line. -/
theorem step_default (k X : List Char) (lsr : List (List Char)) (d : Config)
    (hk : GoodKey k)
    (hXfix : pystrip X = X) (hXne : X ≠ [])
    (h1 : (lStartsWith X ['"'] && lEndsWith X ['"']) = false)
    (h2 : X ≠ ['t', 'r', 'u', 'e']) (h3 : X ≠ ['f', 'a', 'l', 's', 'e'])
    (h4 : lStartsWith X [lbrace] = false) :
    parseLines ((k ++ ' ' :: '=' :: ' ' :: X) :: lsr) d =
      parseLines lsr (odInsert k (Val.str (stripAll '"' X)) d) := by
  obtain ⟨hk1, hk2, _, hk4⟩ := hk
  rw [parseLines]
  rw [show ((k ++ ' ' :: '=' :: ' ' :: X) :: lsr).length =
    lsr.length + 1 from by simp]
  rw [parse_head_line k X lsr d hk1 hk2 hk4 hXfix hXne]
  rw [if_neg (by rw [h1]; simp), if_neg h2, if_neg h3,
    if_neg (by rw [h4]; simp)]

end WC

namespace WC

/-- A map entry the parser can have produced: colon-free key, both key
and value quote-trimmed at the ends and newline-free. -/
def GoodEntry (e : List Char × List Char) : Prop :=
  ':' ∉ e.1 ∧ e.1.head? ≠ some '"' ∧ e.1.getLast? ≠ some '"' ∧
    e.2.head? ≠ some '"' ∧ e.2.getLast? ≠ some '"' ∧
    '\n' ∉ e.1 ∧ '\n' ∉ e.2

instance (e : List Char × List Char) : Decidable (GoodEntry e) := by
  unfold GoodEntry
  infer_instance

/-- One map-parsing step over a serialized `  "k": "v"` line. -/
theorem parse_map_entry_line (e : List Char × List Char) (hg : GoodEntry e)
    (rest : List (List Char)) (acc : SMap) :
    parseMapLines (serMapLine e :: rest) acc =
      parseMapLines rest (odInsert e.1 e.2 acc) := by
  obtain ⟨hc, h1, h2, h3, h4, _, _⟩ := hg
  have hstrip : pystrip (serMapLine e) =
      '"' :: (e.1 ++ ('"' :: ':' :: ' ' :: '"' :: (e.2 ++ ['"']))) := by
    rw [serMapLine]
    rw [pystrip_cons_space (by decide), pystrip_cons_space (by decide)]
    rw [show ('"' :: (e.1 ++ ('"' :: ':' :: ' ' :: '"' :: (e.2 ++ ['"']))) :
      List Char) = '"' :: (e.1 ++ '"' :: ':' :: ' ' :: '"' :: e.2) ++ ['"']
      from by simp]
    exact pystrip_fixed (by decide) (by decide) _
  have hsplit : splitFirst ':'
      ('"' :: (e.1 ++ ('"' :: ':' :: ' ' :: '"' :: (e.2 ++ ['"'])))) =
      some ('"' :: e.1 ++ ['"'], ' ' :: '"' :: (e.2 ++ ['"'])) := by
    rw [show ('"' :: (e.1 ++ ('"' :: ':' :: ' ' :: '"' :: (e.2 ++ ['"']))) :
      List Char) = ('"' :: e.1 ++ ['"']) ++ ':' :: (' ' :: '"' :: (e.2 ++ ['"']))
      from by simp]
    refine splitFirst_of_append ':' _ _ ?_
    intro hm
    rcases List.mem_cons.mp hm with h5 | h6
    · exact absurd h5 (by decide)
    · rcases List.mem_append.mp h6 with h7 | h8
      · exact hc h7
      · simp at h8
  have hcont : ('"' :: (e.1 ++ ('"' :: ':' :: ' ' :: '"' ::
      (e.2 ++ ['"'])))).contains ':' = true := by
    refine (contains_iff _ _).mpr ?_
    refine List.mem_cons_of_mem _ (List.mem_append_right _ ?_)
    exact List.mem_cons_of_mem _ (List.mem_cons_self _ _)
  have hhash : lStartsWith ('"' :: (e.1 ++ ('"' :: ':' :: ' ' :: '"' ::
      (e.2 ++ ['"'])))) ['#'] = false := by
    rw [lStartsWith_single]
    decide
  have hpa : pystrip ('"' :: e.1 ++ ['"']) = '"' :: e.1 ++ ['"'] :=
    pystrip_fixed (by decide) (by decide) _
  have hmk : stripAll '"' ('"' :: e.1 ++ ['"']) = e.1 :=
    stripAll_wrap e.1 h1 h2
  have hpb : pystrip (' ' :: '"' :: (e.2 ++ ['"'])) = '"' :: e.2 ++ ['"'] := by
    rw [pystrip_cons_space (by decide)]
    exact pystrip_fixed (by decide) (by decide) _
  have hcomma : stripAll ',' ('"' :: e.2 ++ ['"']) = '"' :: e.2 ++ ['"'] := by
    rw [show ('"' :: e.2 ++ ['"'] : List Char) = '"' :: e.2 ++ ['"'] from rfl]
    exact stripAll_fixed (by decide) (by decide) _
  have hmv : stripAll '"' ('"' :: e.2 ++ ['"']) = e.2 :=
    stripAll_wrap e.2 h3 h4
  rw [parseMapLines]
  simp only [hstrip, hcont, hhash, Bool.not_false, Bool.and_self, if_true,
    hsplit, hpa, hmk, hpb, hcomma, hmv]

/-- The serialized entry lines of a map block never end (after
stripping) in a closing brace. -/
theorem serMapLine_not_close (e : List Char × List Char) :
    lEndsWith (pystrip (serMapLine e)) [rbrace] = false := by
  have hsh : serMapLine e =
      (' ' :: ' ' :: '"' :: (e.1 ++ '"' :: ':' :: ' ' :: '"' :: e.2)) ++ ['"'] := by
    rw [serMapLine]
    simp
  rcases pystrip_concat_last
      (' ' :: ' ' :: '"' :: (e.1 ++ '"' :: ':' :: ' ' :: '"' :: e.2))
      (show pySpace '"' = false from by decide) with ⟨m, hm⟩
  rw [hsh, hm, lEndsWith_concat]
  decide

/-- The block-collection loop consumes exactly the serialized entry
lines and the closing brace line. -/
theorem collect_ser_block (E : List (List Char))
    (h : ∀ e ∈ E, lEndsWith (pystrip e) [rbrace] = false)
    (lsr : List (List Char)) :
    collectMapLines (E ++ [rbrace] :: lsr) = (E ++ [[rbrace]], lsr) := by
  induction E with
  | nil =>
    rw [List.nil_append, collectMapLines]
    rw [if_pos (by rw [pystrip_single (by decide)]; decide)]
    rfl
  | cons l E' ih =>
    rw [List.cons_append, collectMapLines]
    rw [if_neg (by rw [h l (List.mem_cons_self _ _)]; simp)]
    rw [ih (fun e he => h e (List.mem_cons_of_mem _ he))]
    rfl

end WC

namespace WC

theorem parse_ser_map_entries :
    ∀ (m acc : SMap), (∀ e ∈ m, GoodEntry e) →
      (∀ e ∈ m, e.1 ∉ odKeys acc) → (odKeys m).Nodup →
      parseMapLines (m.map serMapLine ++ [[rbrace]]) acc = some (acc ++ m) := by
  intro m
  induction m with
  | nil =>
    intro acc _ _ _
    rw [List.map_nil, List.nil_append, parseMapLines]
    rw [if_neg (by rw [pystrip_single (by decide)]; decide)]
    rw [parseMapLines]
    simp
  | cons e m' ih =>
    intro acc hg hfresh hnodup
    rw [List.map_cons, List.cons_append]
    rw [parse_map_entry_line e (hg e (List.mem_cons_self _ _))]
    rw [odInsert_fresh _ (hfresh e (List.mem_cons_self _ _))]
    have hkey : e.1 ∉ odKeys m' := by
      rw [odKeys_cons] at hnodup
      exact (List.nodup_cons.mp hnodup).1
    rw [ih (acc ++ [e])
      (fun x hx => hg x (List.mem_cons_of_mem _ hx))
      (by
        intro x hx hmem
        rw [odKeys_append] at hmem
        rcases List.mem_append.mp hmem with h1 | h2
        · exact hfresh x (List.mem_cons_of_mem _ hx) h1
        · have : x.1 = e.1 := by simpa [odKeys] using h2
          exact hkey (this ▸ (List.mem_map_of_mem Prod.fst hx))
      )
      (by
        rw [odKeys_cons] at hnodup
        exact (List.nodup_cons.mp hnodup).2)]
    rw [List.append_assoc]
    rfl

/-- One parser step over a serialized map entry: the block head, the
entry lines and the closing brace are consumed and the map is recovered
exactly. -/
theorem step_map (k : List Char) (m : SMap) (lsr : List (List Char))
    (d : Config) (hk : GoodKey k) (hg : ∀ e ∈ m, GoodEntry e)
    (hnodup : (odKeys m).Nodup) :
    parseLines ((k ++ [' ', '=', ' ', lbrace]) ::
        (m.map serMapLine ++ [rbrace] :: lsr)) d =
      parseLines lsr (odInsert k (Val.map m) d) := by
  obtain ⟨hk1, hk2, _, hk4⟩ := hk
  have hXfix : pystrip [lbrace] = [lbrace] := pystrip_single (by decide)
  rw [parseLines]
  rw [show ((k ++ [' ', '=', ' ', lbrace]) ::
    (m.map serMapLine ++ [rbrace] :: lsr)).length =
    (m.map serMapLine ++ [rbrace] :: lsr).length + 1 from by simp]
  rw [parse_head_line k [lbrace] _ d hk1 hk2 hk4 hXfix (by simp)]
  rw [if_neg (by decide), if_neg (by decide), if_neg (by decide),
    if_pos (by decide)]
  rw [collect_ser_block (m.map serMapLine)
    (by
      intro e he
      rcases List.mem_map.mp he with ⟨x, _, hx⟩
      rw [← hx]
      exact serMapLine_not_close x) lsr]
  have hbrace : parseMapLines ([lbrace] :: (m.map serMapLine ++ [[rbrace]]))
      [] = some m := by
    rw [parseMapLines]
    rw [if_neg (by rw [pystrip_single (by decide)]; decide)]
    rw [parse_ser_map_entries m [] hg (by simp [odKeys]) hnodup]
    simp
  rw [hbrace]
  dsimp only
  rw [parseLinesF_fuel (m.map serMapLine ++ [rbrace] :: lsr).length lsr _
    (by simp; omega)]

end WC

namespace WC

/-- Values the parser can represent and reproduce: single-line strings,
booleans, and flat maps with parser-shaped entries.  The spec's
`StringList` variant is not representable by the embedded code. -/
def GoodVal : Val → Prop
  | .str s => '\n' ∉ s
  | .bool _ => True
  | .map m => (∀ e ∈ m, GoodEntry e) ∧ (odKeys m).Nodup
  | .list _ => False

instance (v : Val) : Decidable (GoodVal v) := by
  rcases v with s | b | m | xs
  · exact inferInstanceAs (Decidable ('\n' ∉ s))
  · exact inferInstanceAs (Decidable True)
  · exact inferInstanceAs
      (Decidable ((∀ e ∈ m, GoodEntry e) ∧ (odKeys m).Nodup))
  · exact inferInstanceAs (Decidable False)

/-- Configurations the parser can have produced (and that `save_tfvars`
followed by `load_tfvars` reproduces exactly). -/
def GoodConfig (cs : Config) : Prop :=
  (odKeys cs).Nodup ∧ ∀ e ∈ cs, GoodKey e.1 ∧ GoodVal e.2

instance (cs : Config) : Decidable (GoodConfig cs) := by
  unfold GoodConfig
  infer_instance

theorem parse_ser_lines :
    ∀ (cs : Config) (d : Config), (odKeys cs).Nodup →
      (∀ e ∈ cs, GoodKey e.1 ∧ GoodVal e.2) →
      (∀ x ∈ odKeys cs, x ∉ odKeys d) →
      parseLines ((cs.map (fun e => serVal e.1 e.2)).flatten) d =
        some (d ++ cs) := by
  intro cs
  induction cs with
  | nil =>
    intro d _ _ _
    simp [parseLines, parseLinesF]
  | cons e cs' ih =>
    intro d hnodup hgood hfresh
    rcases e with ⟨k, v⟩
    have hk : GoodKey k := (hgood (k, v) (List.mem_cons_self _ _)).1
    have hkfresh : k ∉ odKeys d :=
      hfresh k (by rw [odKeys_cons]; exact List.mem_cons_self _ _)
    have hnodup' : (odKeys cs').Nodup := by
      rw [odKeys_cons] at hnodup
      exact (List.nodup_cons.mp hnodup).2
    have hknotin : k ∉ odKeys cs' := by
      rw [odKeys_cons] at hnodup
      exact (List.nodup_cons.mp hnodup).1
    have hfresh' : ∀ x ∈ odKeys cs', x ∉ odKeys (d ++ [(k, v)]) := by
      intro x hx hmem
      rw [odKeys_append] at hmem
      rcases List.mem_append.mp hmem with h1 | h2
      · exact hfresh x (by rw [odKeys_cons]; exact List.mem_cons_of_mem _ hx) h1
      · have hxk : x = k := by simpa [odKeys] using h2
        exact hknotin (hxk ▸ hx)
    have hgood' : ∀ x ∈ cs', GoodKey x.1 ∧ GoodVal x.2 :=
      fun x hx => hgood x (List.mem_cons_of_mem _ hx)
    rw [List.map_cons, List.flatten_cons]
    rcases v with s | b | m | xs
    · rw [show serVal k (Val.str s) =
        [k ++ (' ' :: '=' :: ' ' :: '"' :: (s ++ ['"']))] from rfl]
      rw [List.singleton_append]
      rw [step_str k s _ d hk]
      rw [odInsert_fresh _ hkfresh]
      rw [ih (d ++ [(k, Val.str s)]) hnodup' hgood' hfresh']
      rw [List.append_assoc]
      rfl
    · rw [show serVal k (Val.bool b) =
        [k ++ (' ' :: '=' :: ' ' ::
          (if b then ['t', 'r', 'u', 'e'] else ['f', 'a', 'l', 's', 'e']))]
        from rfl]
      rw [List.singleton_append]
      rw [step_bool k b _ d hk]
      rw [odInsert_fresh _ hkfresh]
      rw [ih (d ++ [(k, Val.bool b)]) hnodup' hgood' hfresh']
      rw [List.append_assoc]
      rfl
    · have hv : GoodVal (Val.map m) := (hgood (k, Val.map m)
        (List.mem_cons_self _ _)).2
      obtain ⟨hge, hnd⟩ := hv
      rw [show serVal k (Val.map m) =
        (k ++ [' ', '=', ' ', lbrace]) :: m.map serMapLine ++ [[rbrace]]
        from rfl]
      rw [show ((k ++ [' ', '=', ' ', lbrace]) :: m.map serMapLine ++
          [[rbrace]]) ++ (cs'.map (fun e => serVal e.1 e.2)).flatten =
        (k ++ [' ', '=', ' ', lbrace]) :: (m.map serMapLine ++
          [rbrace] :: (cs'.map (fun e => serVal e.1 e.2)).flatten)
        from by simp]
      rw [step_map k m _ d hk hge hnd]
      rw [odInsert_fresh _ hkfresh]
      rw [ih (d ++ [(k, Val.map m)]) hnodup' hgood' hfresh']
      rw [List.append_assoc]
      rfl
    · have hv : GoodVal (Val.list xs) := (hgood (k, Val.list xs)
        (List.mem_cons_self _ _)).2
      exact absurd hv (by simp [GoodVal])

end WC

namespace WC

theorem serVal_lines_no_nl (k : List Char) (v : Val) (hk : GoodKey k)
    (hv : GoodVal v) : ∀ l ∈ serVal k v, '\n' ∉ l := by
  have hknl : '\n' ∉ k := hk.2.2.1
  have hlb : ¬ ('\n' = lbrace) := by decide
  have hrb : ¬ ('\n' = rbrace) := by decide
  rcases v with s | b | m | xs
  · intro l hl
    rw [show serVal k (Val.str s) =
      [k ++ (' ' :: '=' :: ' ' :: '"' :: (s ++ ['"']))] from rfl] at hl
    rw [List.mem_singleton] at hl
    subst hl
    intro hm
    rcases List.mem_append.mp hm with h1 | h2
    · exact hknl h1
    · simp only [List.mem_cons, List.mem_append, List.mem_singleton] at h2
      rcases h2 with h | h | h | h | h | h
      · exact absurd h (by decide)
      · exact absurd h (by decide)
      · exact absurd h (by decide)
      · exact absurd h (by decide)
      · exact hv h
      · exact absurd h (by decide)
  · intro l hl
    cases b
    all_goals (
      simp only [serVal, List.mem_singleton] at hl
      subst hl
      intro hm
      simp at hm
      exact hknl hm)
  · intro l hl
    rw [show serVal k (Val.map m) =
      (k ++ [' ', '=', ' ', lbrace]) :: m.map serMapLine ++ [[rbrace]]
      from rfl] at hl
    rcases List.mem_append.mp hl with h1 | h2
    · rcases List.mem_cons.mp h1 with h3 | h4
      · subst h3
        intro hm
        simp [hlb] at hm
        exact hknl hm
      · rcases List.mem_map.mp h4 with ⟨e, he, hse⟩
        subst hse
        obtain ⟨hge, _⟩ := hv
        have hg := hge e he
        intro hm
        rw [serMapLine] at hm
        simp at hm
        rcases hm with h5 | h6
        · exact hg.2.2.2.2.2.1 h5
        · exact hg.2.2.2.2.2.2 h6
    · rw [List.mem_singleton] at h2
      subst h2
      intro hm
      rw [List.mem_singleton] at hm
      exact hrb hm
  · exact absurd hv (by simp [GoodVal])

/-- Parse after serialize is the identity on parser-representable
configurations. -/
theorem load_save (cs : Config) (h : GoodConfig cs) :
    load_tfvars (save_tfvars cs) = some cs := by
  obtain ⟨hnodup, hgood⟩ := h
  rcases hcs : cs with _ | ⟨e, cs'⟩
  · decide
  · rw [← hcs]
    have hne : (cs.map (fun e => serVal e.1 e.2)).flatten ≠ [] := by
      rw [hcs, List.map_cons, List.flatten_cons]
      rcases e with ⟨k, v⟩
      rcases v with s | b | m | xs
      · simp [serVal]
      · simp [serVal]
      · simp [serVal]
      · simp [serVal]
    have hnl : ∀ l ∈ (cs.map (fun e => serVal e.1 e.2)).flatten, '\n' ∉ l := by
      intro l hl
      rcases List.mem_flatten.mp hl with ⟨L, hL, hlL⟩
      rcases List.mem_map.mp hL with ⟨x, hx, hsx⟩
      subst hsx
      exact serVal_lines_no_nl x.1 x.2 (hgood x hx).1 (hgood x hx).2 l hlL
    rw [load_tfvars, save_tfvars]
    rw [splitNL_joinNL _ hne hnl]
    rw [parse_ser_lines cs [] hnodup hgood
      (fun x _ hx => List.not_mem_nil x hx)]
    rw [List.nil_append]

end WC

namespace WC

theorem mem_of_mem_dropLast {α : Type} {x : α} {l : List α}
    (h : x ∈ l.dropLast) : x ∈ l := by
  induction l with
  | nil => simp at h
  | cons a rest ih =>
    cases rest with
    | nil => simp at h
    | cons b rest' =>
      rw [List.dropLast_cons₂] at h
      rcases List.mem_cons.mp h with h1 | h2
      · rw [h1]; exact List.mem_cons_self _ _
      · exact List.mem_cons_of_mem _ (ih h2)

theorem collectMapLines_mem :
    ∀ ls : List (List Char),
      (∀ x ∈ (collectMapLines ls).1, x ∈ ls) ∧
      (∀ x ∈ (collectMapLines ls).2, x ∈ ls) := by
  intro ls
  induction ls with
  | nil => constructor <;> (intro x hx; simp [collectMapLines] at hx)
  | cons l rest ih =>
    by_cases h : lEndsWith (pystrip l) [rbrace] = true
    · rw [collectMapLines, if_pos h]
      constructor
      · intro x hx
        rw [List.mem_singleton] at hx
        rw [hx]; exact List.mem_cons_self _ _
      · intro x hx
        exact List.mem_cons_of_mem _ hx
    · rw [collectMapLines, if_neg h]
      constructor
      · intro x hx
        rcases List.mem_cons.mp hx with h1 | h2
        · rw [h1]; exact List.mem_cons_self _ _
        · exact List.mem_cons_of_mem _ (ih.1 x h2)
      · intro x hx
        exact List.mem_cons_of_mem _ (ih.2 x hx)

theorem odInsert_forall {α : Type} (P : List Char × α → Prop)
    (k : List Char) (v : α) :
    ∀ (d : List (List Char × α)), (∀ e ∈ d, P e) → P (k, v) →
      ∀ e ∈ odInsert k v d, P e := by
  intro d
  induction d with
  | nil =>
    intro _ hkv e he
    rw [odInsert] at he
    rw [List.mem_singleton] at he
    rw [he]; exact hkv
  | cons x rest ih =>
    intro hall hkv e he
    rcases x with ⟨k', v'⟩
    rw [odInsert] at he
    by_cases hk : k' = k
    · rw [if_pos hk] at he
      rcases List.mem_cons.mp he with h1 | h2
      · rw [h1, hk]; exact hkv
      · exact hall e (List.mem_cons_of_mem _ h2)
    · rw [if_neg hk] at he
      rcases List.mem_cons.mp he with h1 | h2
      · rw [h1]; exact hall (k', v') (List.mem_cons_self _ _)
      · exact ih (fun y hy => hall y (List.mem_cons_of_mem _ hy)) hkv e h2

theorem parseMapLines_good :
    ∀ (mls : List (List Char)) (acc : SMap),
      (∀ l ∈ mls, '\n' ∉ l) →
      (∀ e ∈ acc, GoodEntry e) → (odKeys acc).Nodup →
      ∀ m', parseMapLines mls acc = some m' →
        (∀ e ∈ m', GoodEntry e) ∧ (odKeys m').Nodup := by
  intro mls
  induction mls with
  | nil =>
    intro acc _ hge hnd m' h
    rw [parseMapLines] at h
    exact (Option.some.inj h) ▸ ⟨hge, hnd⟩
  | cons ml rest ih =>
    intro acc hnl hge hnd m' h
    have hnlr : ∀ x ∈ rest, '\n' ∉ x :=
      fun x hx => hnl x (List.mem_cons_of_mem _ hx)
    have hnlm : '\n' ∉ ml := hnl ml (List.mem_cons_self _ _)
    rw [parseMapLines] at h
    by_cases hg : ((pystrip ml).contains ':' &&
        !(lStartsWith (pystrip ml) ['#'])) = true
    · rw [if_pos hg] at h
      rcases ho : splitFirst ':' (pystrip ml) with _ | ⟨a, b⟩
      · rw [ho] at h
        exact absurd h (by simp)
      · rw [ho] at h
        obtain ⟨hseq, _⟩ := splitFirst_eq ':' (pystrip ml) a b ho
        have hmema : ∀ x, x ∈ a → x ∈ ml := by
          intro x hx
          refine mem_of_mem_pystrip ?_
          rw [hseq]
          exact List.mem_append_left _ hx
        have hmemb : ∀ x, x ∈ b → x ∈ ml := by
          intro x hx
          refine mem_of_mem_pystrip ?_
          rw [hseq]
          exact List.mem_append_right _ (List.mem_cons_of_mem _ hx)
        have hentry : GoodEntry (stripAll '"' (pystrip a),
            stripAll '"' (stripAll ',' (pystrip b))) := by
          refine ⟨?_, stripAll_head _ _, stripAll_getLast _ _,
            stripAll_head _ _, stripAll_getLast _ _, ?_, ?_⟩
          · intro hm
            have h1 : ':' ∈ a := mem_of_mem_pystrip (mem_of_mem_stripAll hm)
            exact (splitFirst_eq ':' (pystrip ml) a b ho).2 h1
          · intro hm
            exact hnlm (hmema _ (mem_of_mem_pystrip (mem_of_mem_stripAll hm)))
          · intro hm
            exact hnlm (hmemb _ (mem_of_mem_pystrip (mem_of_mem_stripAll
              (mem_of_mem_stripAll hm))))
        refine ih _ hnlr
          (odInsert_forall GoodEntry _ _ acc hge hentry)
          (odInsert_nodup _ _ acc hnd) m' h
    · rw [if_neg hg] at h
      exact ih acc hnlr hge hnd m' h

/-- The head of a parsed key is never `#`. -/
theorem parsed_key_head (l kp vp : List Char)
    (heq : pystrip l = kp ++ '=' :: vp)
    (hhash : lStartsWith (pystrip l) ['#'] = false) :
    (pystrip kp).head? ≠ some '#' := by
  rcases kp with _ | ⟨a, kp'⟩
  · rw [pystrip_nil]; simp
  · have hfix : pystrip (a :: (kp' ++ '=' :: vp)) = a :: (kp' ++ '=' :: vp) := by
      rw [show (a :: (kp' ++ '=' :: vp) : List Char) =
        (a :: kp') ++ '=' :: vp from rfl, ← heq]
      exact pystrip_idem l
    have ha : pySpace a = false := @pystrip_fixed_head a _ hfix
    have hah : a ≠ '#' := by
      rw [heq] at hhash
      rw [show ((a :: kp') ++ '=' :: vp : List Char) =
        a :: (kp' ++ '=' :: vp) from rfl] at hhash
      rw [lStartsWith_single] at hhash
      simpa using hhash
    have hdw : dropWS (a :: kp') = a :: kp' := dropWS_cons_not ha _
    rw [show pystrip (a :: kp') = dropWSR (a :: kp') from by rw [pystrip, hdw]]
    rcases hk2 : dropWSR (a :: kp') with _ | ⟨y, ys⟩
    · simp
    · rcases dropWSR_exists (a :: kp') with ⟨t, ht⟩
      rw [hk2] at ht
      have hy : y = a := by
        rw [List.cons_append] at ht
        injection ht with h1 _
        exact h1.symm
      rw [hy]
      simp [hah]

end WC

namespace WC

/-- Every configuration the parser produces is `GoodConfig`. -/
theorem parse_good :
    ∀ (f : Nat) (ls : List (List Char)) (d : Config),
      (∀ l ∈ ls, '\n' ∉ l) → GoodConfig d →
      ∀ d', parseLinesF f ls d = some d' → GoodConfig d' := by
  intro f
  induction f with
  | zero =>
    intro ls d _ hd d' h
    cases ls with
    | nil => rw [parseLinesF] at h; exact (Option.some.inj h) ▸ hd
    | cons l rest => rw [parseLinesF] at h; exact (Option.some.inj h) ▸ hd
  | succ f' ih =>
    intro ls d hnl hd d' h
    cases ls with
    | nil => rw [parseLinesF] at h; exact (Option.some.inj h) ▸ hd
    | cons l rest =>
      rw [parseLinesF] at h
      have hnlr : ∀ x ∈ rest, '\n' ∉ x :=
        fun x hx => hnl x (List.mem_cons_of_mem _ hx)
      have hnll : '\n' ∉ l := hnl l (List.mem_cons_self _ _)
      by_cases hg : ((pystrip l).contains '=' &&
          !(lStartsWith (pystrip l) ['#'])) = true
      · rw [if_pos hg] at h
        have hhash : lStartsWith (pystrip l) ['#'] = false := by
          rcases (Bool.and_eq_true _ _).mp hg with ⟨_, h2⟩
          simpa using h2
        rcases ho : splitFirst '=' (pystrip l) with _ | ⟨kp, vp⟩
        · rw [ho] at h
          exact absurd h (by simp)
        · rw [ho] at h
          dsimp only at h
          obtain ⟨hseq, hkpne⟩ := splitFirst_eq '=' (pystrip l) kp vp ho
          have hmemk : ∀ x, x ∈ kp → x ∈ l := by
            intro x hx
            refine mem_of_mem_pystrip ?_
            rw [hseq]
            exact List.mem_append_left _ hx
          have hmemv : ∀ x, x ∈ vp → x ∈ l := by
            intro x hx
            refine mem_of_mem_pystrip ?_
            rw [hseq]
            exact List.mem_append_right _ (List.mem_cons_of_mem _ hx)
          have hkey : GoodKey (pystrip kp) := by
            refine ⟨pystrip_idem kp, ?_, ?_, parsed_key_head l kp vp hseq hhash⟩
            · intro hm
              exact hkpne (mem_of_mem_pystrip hm)
            · intro hm
              exact hnll (hmemk _ (mem_of_mem_pystrip hm))
          have hgd : ∀ v : Val, GoodVal v →
              GoodConfig (odInsert (pystrip kp) v d) := by
            intro v hv
            refine ⟨odInsert_nodup _ _ _ hd.1, ?_⟩
            exact odInsert_forall (fun e => GoodKey e.1 ∧ GoodVal e.2)
              _ _ d hd.2 ⟨hkey, hv⟩
          split_ifs at h with h1 h2 h3 h4
          · refine ih rest _ hnlr (hgd _ ?_) d' h
            show '\n' ∉ ((pystrip vp).drop 1).dropLast
            intro hm
            exact hnll (hmemv _ (mem_of_mem_pystrip
              (List.mem_of_mem_drop (mem_of_mem_dropLast hm))))
          · exact ih rest _ hnlr (hgd (Val.bool true) trivial) d' h
          · exact ih rest _ hnlr (hgd (Val.bool false) trivial) d' h
          · rcases hm : parseMapLines
                (pystrip vp :: (collectMapLines rest).1) [] with _ | mm
            · rw [hm] at h
              exact absurd h (by simp)
            · rw [hm] at h
              have hmnl : ∀ x ∈ pystrip vp :: (collectMapLines rest).1,
                  '\n' ∉ x := by
                intro x hx
                rcases List.mem_cons.mp hx with hx1 | hx2
                · rw [hx1]
                  intro hc
                  exact hnll (hmemv _ (mem_of_mem_pystrip hc))
                · exact hnlr x ((collectMapLines_mem rest).1 x hx2)
              have hmm := parseMapLines_good _ []
                hmnl (by intro e he; simp at he) (by simp [odKeys]) mm hm
              refine ih _ _ ?_ (hgd (Val.map mm) ⟨hmm.1, hmm.2⟩) d' h
              intro x hx
              exact hnlr x ((collectMapLines_mem rest).2 x hx)
          · refine ih rest _ hnlr (hgd _ ?_) d' h
            show '\n' ∉ stripAll '"' (pystrip vp)
            intro hm
            exact hnll (hmemv _ (mem_of_mem_pystrip (mem_of_mem_stripAll hm)))
      · rw [if_neg hg] at h
        exact ih rest d hnlr hd d' h

/-- Everything `load_tfvars` returns is a `GoodConfig`. -/
theorem load_tfvars_good (x : List Char) (d : Config)
    (h : load_tfvars x = some d) : GoodConfig d := by
  rw [load_tfvars, parseLines] at h
  refine parse_good _ _ [] (splitNL_mem_no_nl x) ?_ d h
  exact ⟨List.nodup_nil, by intro e he; simp at he⟩

end WC

namespace WC

/-- Re-inserting at the same key overwrites the earlier insertion. -/
theorem odInsert_odInsert {α : Type} (k : List Char) (v1 v2 : α)
    (d : List (List Char × α)) :
    odInsert k v2 (odInsert k v1 d) = odInsert k v2 d := by
  induction d with
  | nil => simp [odInsert]
  | cons e rest ih =>
    rcases e with ⟨k0, v0⟩
    by_cases h : k0 = k
    · rw [odInsert, if_pos h, odInsert, if_pos h, odInsert, if_pos h]
    · rw [odInsert, if_neg h, odInsert, if_neg h, odInsert, if_neg h, ih]

/-- When no line of the input closes the block, the collection loop
stops at end-of-input with everything collected and nothing left. -/
theorem collect_no_close :
    ∀ ls : List (List Char),
      (∀ l ∈ ls, lEndsWith (pystrip l) [rbrace] = false) →
      collectMapLines ls = (ls, []) := by
  intro ls
  induction ls with
  | nil => intro _; rfl
  | cons l rest ih =>
    intro h
    rw [collectMapLines,
      if_neg (by rw [h l (List.mem_cons_self _ _)]; simp)]
    dsimp only
    rw [ih (fun x hx => h x (List.mem_cons_of_mem _ hx))]

end WC

namespace WC

/-- C4.  Parse after serialize is the identity on every configuration
the parser can produce — so Parse(Serialize(Parse(x))) = Parse(x) for
all inputs x — and on every configuration built without a list value.
(The full claim, round-trip for all four value variants, fails for
`Val.list`: see the counterexample.) -/
theorem C4_roundtrip_on_parser_range :
    (∀ (x : List Char) (d : Config), load_tfvars x = some d →
      load_tfvars (save_tfvars d) = some d) ∧
    (∀ cs : Config, GoodConfig cs → load_tfvars (save_tfvars cs) = some cs) :=
  ⟨fun x d h => load_save d (load_tfvars_good x d h),
   fun cs h => load_save cs h⟩

theorem C4_witness :
    load_tfvars (save_tfvars [(("env").toList, Val.str (("prod").toList))]) =
      some [(("env").toList, Val.str (("prod").toList))] :=
  C4_roundtrip_on_parser_range.2 _ (by decide)

/-- A `Val.list` entry does not round-trip: `save_tfvars` interpolates
the Python `str()` of the list inside double quotes, and `load_tfvars`
reads that back as a plain string. -/
theorem C4_counterexample_stringlist :
    load_tfvars (save_tfvars [(("zs").toList, Val.list [("a").toList])]) =
      some [(("zs").toList, Val.str (("['a']").toList))] ∧
    load_tfvars (save_tfvars [(("zs").toList, Val.list [("a").toList])]) ≠
      some [(("zs").toList, Val.list [("a").toList])] := by
  constructor
  · decide
  · decide

end WC

namespace WC

/-- C5.  A `key = value` line whose value starts with `[` is NOT parsed
into a list: it falls through every branch of the classifier to the
default case and is stored as a single-line quote-trimmed string. -/
theorem C5_bracket_value_parses_as_string (k xs : List Char)
    (lsr : List (List Char)) (d : Config) (hk : GoodKey k)
    (hfix : pystrip ('[' :: xs) = '[' :: xs) :
    parseLines ((k ++ ' ' :: '=' :: ' ' :: '[' :: xs) :: lsr) d =
      parseLines lsr (odInsert k (Val.str (stripAll '"' ('[' :: xs))) d) := by
  refine step_default k ('[' :: xs) lsr d hk hfix (by simp) ?_ ?_ ?_ ?_
  · rw [lStartsWith_single]
    simp
  · intro hc
    injection hc with h0 h1
    exact absurd h0 (by decide)
  · intro hc
    injection hc with h0 h1
    exact absurd h0 (by decide)
  · rw [lStartsWith_single]
    decide

theorem C5_witness :
    parseLines ((("zones").toList ++
        ' ' :: '=' :: ' ' :: '[' :: (("\"a\"]").toList)) :: []) [] =
      parseLines []
        (odInsert (("zones").toList)
          (Val.str (stripAll '"' ('[' :: (("\"a\"]").toList)))) []) :=
  C5_bracket_value_parses_as_string (("zones").toList) (("\"a\"]").toList)
    [] [] (by decide) (by decide)

/-- On a concrete multi-line-style list value the parser yields the raw
bracket text as a string, not the `StringList` the specification
describes. -/
theorem C5_counterexample_list_not_parsed :
    load_tfvars (("zones = [\"a\", \"b\"]").toList) =
      some [(("zones").toList, Val.str (("[\"a\", \"b\"]").toList))] ∧
    load_tfvars (("zones = [\"a\", \"b\"]").toList) ≠
      some [(("zones").toList,
        Val.list [("a").toList, ("b").toList])] := by
  constructor
  · decide
  · decide

end WC

namespace WC

/-- C6.  On a `{`-opened block whose closing brace never appears, the
parser terminates: the collection loop stops at end-of-input, the lines
gathered so far are handed to the map parser as the complete block, and
a configuration is returned rather than an error. -/
theorem C6_unclosed_block_recovered (k : List Char) (rest : List (List Char))
    (d : Config) (hk : GoodKey k)
    (hnc : ∀ l ∈ rest, lEndsWith (pystrip l) [rbrace] = false) :
    parseLines ((k ++ [' ', '=', ' ', lbrace]) :: rest) d =
      some (odInsert k
        (Val.map ((parseMapLines ([lbrace] :: rest) []).getD [])) d) := by
  obtain ⟨hk1, hk2, _, hk4⟩ := hk
  have hXfix : pystrip [lbrace] = [lbrace] := pystrip_single (by decide)
  rw [parseLines]
  rw [show ((k ++ [' ', '=', ' ', lbrace]) :: rest).length =
    rest.length + 1 from by simp]
  rw [parse_head_line k [lbrace] rest d hk1 hk2 hk4 hXfix (by simp)]
  rw [if_neg (by decide), if_neg (by decide), if_neg (by decide),
    if_pos (by decide)]
  rw [collect_no_close rest hnc]
  rcases hm : parseMapLines ([lbrace] :: rest) [] with _ | m
  · have := parseMapLines_total ([lbrace] :: rest) []
    rw [hm] at this
    simp at this
  · dsimp only [Option.getD_some]
    rw [parseLinesF]

theorem C6_witness :
    parseLines ((("tags").toList ++ [' ', '=', ' ', lbrace]) ::
        [(("  a = b").toList)]) [] =
      some (odInsert (("tags").toList)
        (Val.map
          ((parseMapLines ([lbrace] :: [(("  a = b").toList)]) []).getD []))
        []) :=
  C6_unclosed_block_recovered (("tags").toList) [(("  a = b").toList)] []
    (by decide) (by decide)

end WC

namespace WC

/-- C10.  The parser is total (never reaches the raising state on any
input), a line with no `=` in its stripped form — or one starting with
`#` — is skipped without changing the accumulated configuration, and
when the same key appears on two lines the later line's value wins. -/
theorem C10_parse_total_skip_last_wins :
    (∀ x : List Char, (load_tfvars x).isSome) ∧
    (∀ (l : List Char) (lsr : List (List Char)) (d : Config),
      ((pystrip l).contains '=' && !(lStartsWith (pystrip l) ['#'])) = false →
      parseLines (l :: lsr) d = parseLines lsr d) ∧
    (∀ (k s1 s2 : List Char) (lsr : List (List Char)) (d : Config),
      GoodKey k →
      parseLines ((k ++ ' ' :: '=' :: ' ' :: '"' :: (s1 ++ ['"'])) ::
          ((k ++ ' ' :: '=' :: ' ' :: '"' :: (s2 ++ ['"'])) :: lsr)) d =
        parseLines lsr (odInsert k (Val.str s2) d)) := by
  refine ⟨?_, ?_, ?_⟩
  · intro x
    rw [load_tfvars, parseLines]
    exact parseLinesF_total _ _ _
  · intro l lsr d hg
    rw [parseLines,
      show (l :: lsr).length = lsr.length + 1 from rfl, parseLinesF]
    dsimp only
    rw [if_neg (by rw [hg]; simp)]
    exact parseLines_def lsr d
  · intro k s1 s2 lsr d hk
    rw [step_str k s1 _ d hk, step_str k s2 lsr _ hk, odInsert_odInsert]

theorem C10_witness :
    (load_tfvars (("#### no equals here").toList)).isSome ∧
    parseLines [(("# skip me").toList)] [] = parseLines [] [] ∧
    parseLines ((("k").toList ++
          ' ' :: '=' :: ' ' :: '"' :: ((("old").toList) ++ ['"'])) ::
        ((("k").toList ++
          ' ' :: '=' :: ' ' :: '"' :: ((("new").toList) ++ ['"'])) :: [])) [] =
      parseLines [] (odInsert (("k").toList) (Val.str (("new").toList)) []) :=
  ⟨C10_parse_total_skip_last_wins.1 _,
   C10_parse_total_skip_last_wins.2.1 _ [] [] (by decide),
   C10_parse_total_skip_last_wins.2.2 (("k").toList) (("old").toList)
     (("new").toList) [] [] (by decide)⟩

end WC
